import Mathlib

/-!
Shallow embedding of the `inputmask-core` repository (Pattern compiler,
FormatCharacters registry and the InputMask edit engine) and proofs about it.

JavaScript strings are modelled as Lean `String`; a JS array of strings whose
entries may be holes / `undefined` (as produced by `new Array(n)` with a
`break`, or by out-of-range reads) is modelled as `List (Option String)` with
`none` standing for `undefined`.  Selection offsets are `Int` because the
engine freely decrements them and the constructor / `setSelection` accept
arbitrary numbers.  All definitions follow the source files
`src/lib/InputMask.ts` and the Pattern/FormatCharacters module.
-/

namespace InputMaskCore

/-- A JS string value that may be `undefined`: `none` = `undefined`. -/
abbrev JSVal := Option String

/-- JS `Array.prototype.join('')`: `undefined` holes contribute the empty string. -/
def joinValue (v : List JSVal) : String :=
  v.foldl (fun acc e => acc ++ e.getD "") ""

/-- JS `str.split('')` viewed as a buffer of defined one-character entries. -/
def splitStr (s : String) : List JSVal :=
  s.data.map (fun c => some c.toString)

/-- JS `str.split('')` as a plain list of one-character strings (for `formatValue`). -/
def splitCand (s : String) : List String :=
  s.data.map Char.toString

/-- JS array read `v[i]` with an `Int` index: out of range (or a hole) gives `undefined`. -/
def jsGet (v : List JSVal) (i : Int) : JSVal :=
  if i < 0 then none else v.getD i.toNat none

/-- JS array write `v[i] = x`: in range overwrites, past the end pads with holes.
A negative index would create a plain object property and leave the array
contents alone (every call site in the source is guarded by
`isEditableIndex`, which forces `0 <= i < pattern.length`). -/
def jsSet (v : List JSVal) (i : Int) (x : String) : List JSVal :=
  if i < 0 then v
  else if i.toNat < v.length then v.set i.toNat (some x)
  else (v ++ List.replicate (i.toNat - v.length) none) ++ [some x]

/-- JS `str.charAt(i)`: the empty string when `i` is out of range. -/
def charAt (s : String) (i : Nat) : String :=
  match s.data.get? i with
  | some c => c.toString
  | none => ""

/-- One entry of the format-character registry: `{validate, transform?}`.
`validate` receives a JS value (the engine passes `undefined` to it in the
revealing-mask branch of `formatValue`). -/
structure FmtChar where
  validate : JSVal → Bool
  transform : Option (String → String)

/-- A format-character registry, keyed by the single pattern character. -/
abbrev Registry := Char → Option FmtChar

/-- Predicate test of the regex `/^\d$/` on a JS value (`undefined` never matches). -/
def jsSingleTest (p : Char → Bool) : JSVal → Bool := fun v =>
  match v with
  | some s =>
    match s.data with
    | [c] => p c
    | _ => false
  | none => false

def isAsciiLetter (c : Char) : Bool := ('A' ≤ c && c ≤ 'Z') || ('a' ≤ c && c ≤ 'z')

/-- `DEFAULT_FORMAT_CHARACTERS` from the FormatCharacters module:
`*` alphanumeric, `1` digit, `a` letter, `A` letter uppercased,
`#` alphanumeric uppercased. -/
def defaultRegistry : Registry := fun ch =>
  if ch = '*' then some ⟨jsSingleTest (fun c => c.isDigit || isAsciiLetter c), none⟩
  else if ch = '1' then some ⟨jsSingleTest Char.isDigit, none⟩
  else if ch = 'a' then some ⟨jsSingleTest isAsciiLetter, none⟩
  else if ch = 'A' then some ⟨jsSingleTest isAsciiLetter, some (fun s => s.map Char.toUpper)⟩
  else if ch = '#' then some ⟨jsSingleTest (fun c => c.isDigit || isAsciiLetter c), some (fun s => s.map Char.toUpper)⟩
  else none

def ESCAPE_CHAR : Char := '\\'

def DEFAULT_PLACEHOLDER_CHAR : String := "_"

/-- One pass of `Pattern._parse`: resolve escapes, and flag each emitted slot
as editable (`true`) when its character is a registry key that was not escaped.
Fails exactly when the source ends with a raw escape character. -/
def parseSlots (registry : Registry) : List Char → Except String (List (Char × Bool))
  | [] => .ok []
  | c :: rest =>
    if c = ESCAPE_CHAR then
      match rest with
      | [] => .error "InputMask: pattern ends with a raw \\"
      | c2 :: rest2 => (parseSlots registry rest2).map (fun l => (c2, false) :: l)
    else
      (parseSlots registry rest).map (fun l => (c, (registry c).isSome) :: l)

/-- Index of the first `true` flag, as `_parse` records `firstEditableIndex`. -/
def findFirstTrue (l : List Bool) : Option Nat := l.findIdx? id

/-- Index of the last `true` flag, as `_parse` keeps overwriting `lastEditableIndex`. -/
def findLastTrue (l : List Bool) : Option Nat :=
  (List.range l.length).foldl (fun acc i => if l.getD i false then some i else acc) none

/-- The compiled `Pattern` object (immutable after construction). -/
structure PatternT where
  registry : Registry
  placeholderChar : String
  pattern : List Char
  editable : List Bool
  firstEditableIndex : Nat
  lastEditableIndex : Nat
  isRevealingMask : Bool

/-- The `Pattern` constructor: placeholder falls back to `'_'` when the given
one is falsy (the empty string), then `_parse` runs and construction fails when
no editable slot exists. -/
def mkPattern (source : String) (registry : Registry) (placeholderChar : String)
    (isRevealingMask : Bool) : Except String PatternT :=
  match parseSlots registry source.data with
  | .error e => .error e
  | .ok slots =>
    let flags := slots.map Prod.snd
    match findFirstTrue flags with
    | none =>
      .error ("InputMask: pattern \"" ++ source ++ "\" does not contain any editable characters.")
    | some fe =>
      .ok { registry := registry
            placeholderChar := if placeholderChar = "" then DEFAULT_PLACEHOLDER_CHAR else placeholderChar
            pattern := slots.map Prod.fst
            editable := flags
            firstEditableIndex := fe
            lastEditableIndex := (findLastTrue flags).getD fe
            isRevealingMask := isRevealingMask }

/-- `Pattern.isEditableIndex` on an arbitrary (possibly negative) index:
the `_editableIndices` lookup is `undefined` (falsy) outside `[0, length)`. -/
def isEditableI (p : PatternT) (i : Int) : Bool :=
  if i < 0 then false else p.editable.getD i.toNat false

/-- `Pattern.isValidAtIndex(char, index)` (call sites guarantee the slot's
character is a registry key; otherwise JS would have thrown, we return false). -/
def validAtN (p : PatternT) (c : JSVal) (i : Nat) : Bool :=
  match p.registry (p.pattern.getD i ' ') with
  | some f => f.validate c
  | none => false

/-- `Pattern.transform(char, index)`: apply the slot's transform when it is a function. -/
def transformAtN (p : PatternT) (c : String) (i : Nat) : String :=
  match p.registry (p.pattern.getD i ' ') with
  | some f =>
    match f.transform with
    | some t => t c
    | none => c
  | none => c

/-- The loop body of `Pattern.formatValue`, walking slot index `i` with value
cursor `vi` over a buffer initialised to `new Array(length)` (all holes).
The revealing-mask `break` returns the buffer as built so far.  Fuel is the
number of loop iterations still allowed; `formatValue` passes `length`,
which is exact since `i` increases by one per iteration. -/
def fvAux (p : PatternT) (cand : List String) : Nat → Nat → Nat → List JSVal → List JSVal
  | 0, _, _, buf => buf
  | fuel + 1, i, vi, buf =>
    if i < p.pattern.length then
      if p.editable.getD i false then
        if p.isRevealingMask && decide (cand.length ≤ vi) && !(validAtN p (cand.get? vi) i) then
          buf
        else
          let entry : JSVal :=
            if decide (vi < cand.length) && validAtN p (cand.get? vi) i then
              some (transformAtN p (cand.getD vi "") i)
            else some p.placeholderChar
          fvAux p cand fuel (i + 1) (vi + 1) (buf.set i entry)
      else
        let lit := (p.pattern.getD i ' ').toString
        let vi2 := if decide (vi < cand.length) && decide (cand.getD vi "" = lit) then vi + 1 else vi
        fvAux p cand fuel (i + 1) vi2 (buf.set i (some lit))
    else buf

/-- `Pattern.formatValue(value)`. -/
def formatValue (p : PatternT) (cand : List String) : List JSVal :=
  fvAux p cand p.pattern.length 0 0 (List.replicate p.pattern.length none)

/-- A selection `{start, end}` (`end` is a Lean keyword, named `stop` here). -/
structure Sel where
  start : Int
  stop : Int
deriving DecidableEq, Repr

/-- A history entry `{value, selection, lastOp, startUndo?}` (`startUndo`
absent = `false`). -/
structure HistoryItem where
  value : String
  selection : Sel
  lastOp : Option String
  startUndo : Bool
deriving DecidableEq, Repr

/-- The mutable fields of an `InputMask` instance (the pattern and
placeholder, fixed after construction, live in `Ctx`). -/
@[ext]
structure MaskState where
  value : List JSVal
  selection : Sel
  history : List HistoryItem
  historyIndex : Option Nat
  lastOp : Option String
  lastSelection : Option Sel
deriving DecidableEq, Repr

/-- The immutable part of an engine: the compiled pattern and the engine's own
`placeholderChar` (which, unlike the pattern's, has no `'_'` fallback). -/
structure Ctx where
  pat : PatternT
  placeholderChar : String

/-- `InputMask.getRawValue`: the defined editable-slot entries of the buffer,
joined (holes contribute nothing, exactly as `Array.prototype.join`). -/
def rawValue (ctx : Ctx) (s : MaskState) : String :=
  (List.range s.value.length).foldl
    (fun acc i =>
      if ctx.pat.editable.getD i false then acc ++ (s.value.getD i none).getD "" else acc)
    ""

/-- `InputMask.getValue`: in revealing-mask mode the buffer is recomputed from
the raw value (a genuine mutation of `this.value`); otherwise it is a pure join. -/
def getValueS (ctx : Ctx) (s : MaskState) : String × MaskState :=
  if ctx.pat.isRevealingMask then
    let v2 := formatValue ctx.pat (splitCand (rawValue ctx s))
    (joinValue v2, { s with value := v2 })
  else (joinValue s.value, s)

/-- `InputMask.setValue`. -/
def setValueOp (ctx : Ctx) (v : String) (s : MaskState) : MaskState :=
  { s with value := formatValue ctx.pat (splitCand v) }

/-- The while loop of `input` that blanks editable slots of an overwritten
selection: `end` runs from `selection.end - 1` down while `end > inputIndex`.
Fuel = the exact iteration count `(selection.end - 1 - inputIndex).toNat`. -/
def inputBlank (ctx : Ctx) : Nat → Int → Int → List JSVal → List JSVal
  | 0, _, _, v => v
  | fuel + 1, e, lo, v =>
    if lo < e then
      inputBlank ctx fuel (e - 1) lo
        (if isEditableI ctx.pat e then jsSet v e ctx.placeholderChar else v)
    else v

/-- The while loop of `input` that advances the cursor over static slots:
`while (length > start && !isEditableIndex(start)) start++`.  Fuel
`pattern.length` is enough since every iteration requires `start < length`
and the loop starts at a nonnegative index. -/
def skipStatic (ctx : Ctx) : Nat → Int → Int
  | 0, i => i
  | fuel + 1, i =>
    if decide ((ctx.pat.pattern.length : Int) > i) && !(isEditableI ctx.pat i) then
      skipStatic ctx fuel (i + 1)
    else i

/-- The history block shared verbatim by `input` and `backspace`: blow away
redo entries when replaying, then push the pre-operation snapshot unless the
operation coalesces with the previous one of the same kind from the same
cursor position. -/
def histAfter (opName : String) (valueBefore : String) (selectionBefore : Sel)
    (s1 : MaskState) : List HistoryItem :=
  let hist1 :=
    if s1.historyIndex.isSome then s1.history.take (s1.historyIndex.getD 0) else s1.history
  let pushNeeded : Bool :=
    decide (s1.lastOp ≠ some opName) || decide (selectionBefore.start ≠ selectionBefore.stop) ||
      (match s1.lastSelection with
       | some ls => decide (selectionBefore.start ≠ ls.start)
       | none => false)
  if pushNeeded then hist1 ++ [⟨valueBefore, selectionBefore, s1.lastOp, false⟩] else hist1

/-- The effective insertion index of `input`: the cursor, clamped up to the
first editable index when it sits in the leading literal region. -/
def effIndex (ctx : Ctx) (start : Int) : Int :=
  if start < (ctx.pat.firstEditableIndex : Int) then (ctx.pat.firstEditableIndex : Int)
  else start

/-- `InputMask.input(char)`. -/
def inputOp (ctx : Ctx) (c : String) (s : MaskState) : Bool × MaskState :=
  if s.selection.start = s.selection.stop ∧ s.selection.start = (ctx.pat.pattern.length : Int) then
    (false, s)
  else
    let selectionBefore := s.selection
    let gv := getValueS ctx s
    let valueBefore := gv.1
    let s1 := gv.2
    let inputIndex : Int := effIndex ctx s1.selection.start
    let afterStore : List JSVal → Bool × MaskState := fun v =>
      let v2 := inputBlank ctx (s1.selection.stop - 1 - inputIndex).toNat
        (s1.selection.stop - 1) inputIndex v
      let ns := skipStatic ctx ctx.pat.pattern.length (inputIndex + 1)
      let newSel : Sel := ⟨ns, ns⟩
      (true,
        { value := v2, selection := newSel,
          history := histAfter "input" valueBefore selectionBefore s1, historyIndex := none,
          lastOp := some "input", lastSelection := some newSel })
    if isEditableI ctx.pat inputIndex then
      if !(validAtN ctx.pat (some c) inputIndex.toNat) then (false, s1)
      else afterStore (jsSet s1.value inputIndex (transformAtN ctx.pat c inputIndex.toNat))
    else afterStore s1.value

/-- The while loop of `backspace` over a range selection: `end` runs from
`selection.end - 1` down while `end >= start`.  Fuel is the exact count. -/
def bspBlank (ctx : Ctx) : Nat → Int → Int → List JSVal → List JSVal
  | 0, _, _, v => v
  | fuel + 1, e, lo, v =>
    if lo ≤ e then
      bspBlank ctx fuel (e - 1) lo
        (if isEditableI ctx.pat e then jsSet v e ctx.placeholderChar else v)
    else v

/-- `InputMask.backspace()`.  Note: unlike `input`, the history block splices
away redo entries but does not reset `_historyIndex` to `null`. -/
def backspaceOp (ctx : Ctx) (s : MaskState) : Bool × MaskState :=
  if s.selection.start = 0 ∧ s.selection.stop = 0 then (false, s)
  else
    let selectionBefore := s.selection
    let gv := getValueS ctx s
    let valueBefore := gv.1
    let s1 := gv.2
    let core : List JSVal × Sel :=
      if s1.selection.start = s1.selection.stop then
        let j := s1.selection.start - 1
        let v2 :=
          if isEditableI ctx.pat j then
            if ctx.pat.isRevealingMask then s1.value.take j.toNat
            else jsSet s1.value j ctx.placeholderChar
          else s1.value
        (v2, ⟨s1.selection.start - 1, s1.selection.stop - 1⟩)
      else
        let v2 := bspBlank ctx (s1.selection.stop - s1.selection.start).toNat
          (s1.selection.stop - 1) s1.selection.start s1.value
        (v2, ⟨s1.selection.start, s1.selection.start⟩)
    (true,
      { value := core.1, selection := core.2,
        history := histAfter "backspace" valueBefore selectionBefore s1,
        historyIndex := s1.historyIndex,
        lastOp := some "backspace", lastSelection := some core.2 })

/-- `pattern.pattern[i]` as a JS value (`undefined` out of range). -/
def patAt (p : PatternT) (i : Nat) : JSVal :=
  (p.pattern.get? i).map Char.toString

/-- The character-feeding loop of `paste`, carrying the pre-paste snapshot
`init` to restore on rejection.  The loop condition
`selection.start <= lastEditableIndex` is re-checked before each character. -/
def pasteLoop (ctx : Ctx) (init : MaskState) : List Char → MaskState → Bool × MaskState
  | [], s => (true, s)
  | c :: rest, s =>
    if s.selection.start ≤ (ctx.pat.lastEditableIndex : Int) then
      let r := inputOp ctx c.toString s
      if r.1 then pasteLoop ctx init rest r.2
      else
        let s' := r.2
        if decide (s'.selection.start > 0) &&
            !(isEditableI ctx.pat (s'.selection.start - 1)) &&
            decide (some c.toString = patAt ctx.pat (s'.selection.start - 1).toNat) then
          pasteLoop ctx init rest s'
        else (false, init)
    else (true, s)

/-- `InputMask.paste(input)`.  The snapshot `initialState` copies exactly the
six mutable fields, i.e. the whole `MaskState`. -/
def pasteOp (ctx : Ctx) (inputStr : String) (s : MaskState) : Bool × MaskState :=
  let initialState : MaskState :=
    { value := s.value, selection := s.selection, lastOp := s.lastOp,
      history := s.history, historyIndex := s.historyIndex, lastSelection := s.lastSelection }
  let fe : Int := ctx.pat.firstEditableIndex
  if s.selection.start < fe then
    let l := (fe - s.selection.start).toNat
    if (List.range l).all (fun i => decide (some (charAt inputStr i) = patAt ctx.pat i)) then
      let pasted := inputStr.drop l
      let s1 : MaskState := { s with selection := ⟨fe, s.selection.stop⟩ }
      pasteLoop ctx initialState pasted.data s1
    else (false, s)
  else pasteLoop ctx initialState inputStr.data s

/-- `InputMask.undo()`.  The result flag is `none` when the JS code would have
thrown (indexing past the history array); the state then carries whatever
mutations happened before the throw. -/
def undoOp (ctx : Ctx) (s : MaskState) : Option Bool × MaskState :=
  if s.history.length = 0 ∨ s.historyIndex = some 0 then (some false, s)
  else
    match s.historyIndex with
    | none =>
      let idx := s.history.length - 1
      let item := s.history.getD idx ⟨"", ⟨0, 0⟩, none, false⟩
      let gv := getValueS ctx s
      let value := gv.1
      let s1 := gv.2
      let hist2 :=
        if item.value ≠ value ∨ item.selection.start ≠ s1.selection.start ∨
            item.selection.stop ≠ s1.selection.stop then
          s1.history ++ [⟨value, s1.selection, s1.lastOp, true⟩]
        else s1.history
      (some true,
        { s1 with
          history := hist2
          historyIndex := some idx
          value := splitStr item.value
          selection := item.selection
          lastOp := item.lastOp })
    | some k =>
      let k2 := k - 1
      match s.history.get? k2 with
      | some item =>
        (some true,
          { s with
            historyIndex := some k2
            value := splitStr item.value
            selection := item.selection
            lastOp := item.lastOp })
      | none => (none, { s with historyIndex := some k2 })

/-- `InputMask.redo()`.  As in `undoOp`, a `none` flag marks the JS throw on
reading `.value` of an `undefined` history item; `_historyIndex` has already
been incremented at that point. -/
def redoOp (_ctx : Ctx) (s : MaskState) : Option Bool × MaskState :=
  if s.history.length = 0 ∨ s.historyIndex = none then (some false, s)
  else
    let k := s.historyIndex.getD 0 + 1
    match s.history.get? k with
    | some item =>
      if k = s.history.length - 1 then
        let hist2 := if item.startUndo then s.history.dropLast else s.history
        (some true,
          { s with
            historyIndex := none
            history := hist2
            value := splitStr item.value
            selection := item.selection
            lastOp := item.lastOp })
      else
        (some true,
          { s with
            historyIndex := some k
            value := splitStr item.value
            selection := item.selection
            lastOp := item.lastOp })
    | none => (none, { s with historyIndex := some k })

/-- The cursor walk of `setSelection`: from `index` downwards while
`index >= firstEditableIndex`, breaking at the first position that either sits
right after a filled editable slot (`value[index-1] !== placeholderChar`) or
equals `firstEditableIndex`.  Returns `none` when the while condition fails
before any break (the stored selection is then left as supplied).
Fuel `(index - fe).toNat + 1` covers every iteration. -/
def ssWalk (ctx : Ctx) (v : List JSVal) : Nat → Int → Option Int
  | 0, _ => none
  | fuel + 1, index =>
    let fe : Int := ctx.pat.firstEditableIndex
    if fe ≤ index then
      if (isEditableI ctx.pat (index - 1) &&
            decide (jsGet v (index - 1) ≠ some ctx.placeholderChar)) ||
          decide (index = fe) then
        some index
      else ssWalk ctx v fuel (index - 1)
    else none

/-- `InputMask.setSelection(selection)`: the supplied range is stored verbatim
(a copy), then a collapsed cursor is clamped up to `firstEditableIndex` or
walked left; a non-collapsed range returns `false` with the stored range kept. -/
def setSelectionOp (ctx : Ctx) (sel : Sel) (s : MaskState) : Bool × MaskState :=
  let s1 : MaskState := { s with selection := sel }
  if sel.start = sel.stop then
    let fe : Int := ctx.pat.firstEditableIndex
    if sel.start < fe then (true, { s1 with selection := ⟨fe, fe⟩ })
    else
      match ssWalk ctx s1.value ((sel.start - fe).toNat + 1) sel.start with
      | some idx => (true, { s1 with selection := ⟨idx, idx⟩ })
      | none => (true, s1)
  else (false, s1)

/-- The `InputMask` constructor for a non-null pattern: validates
`placeholderChar`, compiles the pattern and installs it (`setPattern`), which
seeds the buffer via `formatValue`, stores the given selection and resets the
history.  The merged format-character registry is passed in directly. -/
def mkMask (patternSrc : String) (registry : Registry) (placeholderChar : String)
    (isRevealingMask : Bool) (value0 : String) (sel0 : Sel) :
    Except String (Ctx × MaskState) :=
  if placeholderChar.length > 1 then
    .error "InputMask: placeholderChar should be a single character or an empty string."
  else
    match mkPattern patternSrc registry placeholderChar isRevealingMask with
    | .error e => .error e
    | .ok pat =>
      let ctx : Ctx := ⟨pat, placeholderChar⟩
      .ok (ctx,
        { value := formatValue pat (splitCand value0), selection := sel0,
          history := [], historyIndex := none, lastOp := none, lastSelection := some sel0 })

/-! ### Concrete engines used by the scenario claims -/

/-- A dummy engine, only used as the default of `Option.getD` below. -/
def dummyMask : Ctx × MaskState :=
  ⟨⟨⟨defaultRegistry, "_", [], [], 0, 0, false⟩, "_"⟩, ⟨[], ⟨0, 0⟩, [], none, none, none⟩⟩

/-- Unwrap a successful construction (paired with `isOk` facts in the theorems). -/
def mkMaskD (patternSrc : String) (registry : Registry) (placeholderChar : String)
    (isRevealingMask : Bool) (value0 : String) (sel0 : Sel) : Ctx × MaskState :=
  (mkMask patternSrc registry placeholderChar isRevealingMask value0 sel0).toOption.getD dummyMask

/-- The US-phone mask of the spec scenarios, empty value, default placeholder. -/
def phoneMask : Ctx × MaskState := mkMaskD "(111) 111-1111" defaultRegistry "_" false "" ⟨0, 0⟩

/-- Mask `"aa"`, empty value. -/
def aaMask : Ctx × MaskState := mkMaskD "aa" defaultRegistry "_" false "" ⟨0, 0⟩

/-- Mask `"A1"`, empty value. -/
def a1Mask : Ctx × MaskState := mkMaskD "A1" defaultRegistry "_" false "" ⟨0, 0⟩

/-- Revealing mask `"111-111"`, empty value. -/
def revealMask : Ctx × MaskState := mkMaskD "111-111" defaultRegistry "_" true "" ⟨0, 0⟩

/-- Revealing mask `"1-1"`, empty value. -/
def reveal11Mask : Ctx × MaskState := mkMaskD "1-1" defaultRegistry "_" true "" ⟨0, 0⟩

/-- Mask `"11"` constructed with the empty placeholder string. -/
def emptyPhMask : Ctx × MaskState := mkMaskD "11" defaultRegistry "" false "" ⟨0, 0⟩

/-- Revealing mask `"11"` constructed with initial value `"1"` and the cursor
after the typed digit. -/
def reveal2Mask : Ctx × MaskState := mkMaskD "11" defaultRegistry "_" true "1" ⟨1, 1⟩

/-- Mask with source characters `1 \ 5 1`: digit slot, literal `5`, digit slot;
constructed with the cursor placed on the last slot. -/
def litFiveMask : Ctx × MaskState := mkMaskD "1\\51" defaultRegistry "_" false "" ⟨2, 2⟩

/-- The revealing `"111-111"` engine after typing `1` then `2`. -/
def revealTyped : MaskState :=
  (inputOp revealMask.1 "2" (inputOp revealMask.1 "1" revealMask.2).2).2

/-- The revealing `"1-1"` engine after typing `1`. -/
def reveal11Typed : MaskState := (inputOp reveal11Mask.1 "1" reveal11Mask.2).2

/-- The `"1\51"` engine after typing `5` into the last slot. -/
def litFiveTyped : MaskState := (inputOp litFiveMask.1 "5" litFiveMask.2).2

/-- The phone engine after typing `5`. -/
def phoneTyped : MaskState := (inputOp phoneMask.1 "5" phoneMask.2).2

/-- The break condition of the `setSelection` cursor walk at position `q`:
the slot just before `q` is editable and holds something other than the
engine's placeholder, or `q` is the first editable index. -/
def ssBreak (ctx : Ctx) (v : List JSVal) (q : Int) : Prop :=
  (isEditableI ctx.pat (q - 1) = true ∧ jsGet v (q - 1) ≠ some ctx.placeholderChar) ∨
    q = (ctx.pat.firstEditableIndex : Int)

/-! ### Derived measures of the pattern scanner (for C6) -/

/-- Whether `_parse`'s scan reaches the escape character as the final,
unconsumed source character (the `UnterminatedEscape` situation). -/
def endsRawEscape : List Char → Bool
  | [] => false
  | [c] => decide (c = ESCAPE_CHAR)
  | c :: c2 :: rest =>
    if c = ESCAPE_CHAR then endsRawEscape rest else endsRawEscape (c2 :: rest)

/-- Source length with each escape pair collapsed to one slot (the slot count
the scan emits on success). -/
def collapsedLen : List Char → Nat
  | [] => 0
  | [c] => if c = ESCAPE_CHAR then 0 else 1
  | c :: c2 :: rest =>
    if c = ESCAPE_CHAR then 1 + collapsedLen rest else 1 + collapsedLen (c2 :: rest)

/-! ### Edit sequences, undo/redo iteration (for C2) and reachability (for C3) -/

/-- One user edit fed to the engine: a character of input, or a backspace. -/
inductive EditOp where
  | typeC (c : String)
  | bspC
deriving DecidableEq, Repr

def applyEdit (ctx : Ctx) (s : MaskState) : EditOp → MaskState
  | .typeC c => (inputOp ctx c s).2
  | .bspC => (backspaceOp ctx s).2

def applyEdits (ctx : Ctx) (s : MaskState) (ops : List EditOp) : MaskState :=
  ops.foldl (applyEdit ctx) s

/-- Call `undo()` repeatedly while it keeps returning `true` (at most `fuel` calls). -/
def undoStar (ctx : Ctx) : Nat → MaskState → MaskState
  | 0, s => s
  | fuel + 1, s =>
    let r := undoOp ctx s
    if r.1 = some true then undoStar ctx fuel r.2 else r.2

/-- Call `redo()` repeatedly while it keeps returning `true` (at most `fuel` calls). -/
def redoStar (ctx : Ctx) : Nat → MaskState → MaskState
  | 0, s => s
  | fuel + 1, s =>
    let r := redoOp ctx s
    if r.1 = some true then redoStar ctx fuel r.2 else r.2

/-- Undo until it returns false, then redo until it returns false.  The fuel
`history.length + 2` strictly exceeds the number of calls either loop can make
(undo pushes at most one synthetic entry before replaying). -/
def danceState (ctx : Ctx) (s : MaskState) : MaskState :=
  redoStar ctx (s.history.length + 2) (undoStar ctx (s.history.length + 2) s)

/-- All states an engine can reach from `s0` by the public operations
(`setPattern` excluded: it installs a fresh engine). -/
inductive Reach (ctx : Ctx) (s0 : MaskState) : MaskState → Prop
  | refl : Reach ctx s0 s0
  | typeStep {s} (c : String) : Reach ctx s0 s → Reach ctx s0 (inputOp ctx c s).2
  | bspStep {s} : Reach ctx s0 s → Reach ctx s0 (backspaceOp ctx s).2
  | pasteStep {s} (t : String) : Reach ctx s0 s → Reach ctx s0 (pasteOp ctx t s).2
  | undoStep {s} : Reach ctx s0 s → Reach ctx s0 (undoOp ctx s).2
  | redoStep {s} : Reach ctx s0 s → Reach ctx s0 (redoOp ctx s).2
  | setSelStep {s} (sel : Sel) : Reach ctx s0 s → Reach ctx s0 (setSelectionOp ctx sel s).2
  | setValStep {s} (v : String) : Reach ctx s0 s → Reach ctx s0 (setValueOp ctx v s)
  | getValStep {s} : Reach ctx s0 s → Reach ctx s0 (getValueS ctx s).2

/-! ### Well-formedness invariants -/

/-- Every buffer entry is a defined one-character string. -/
def SingleEntries (v : List JSVal) : Prop :=
  ∀ i, i < v.length → ∃ c : Char, v.getD i none = some c.toString

/-- The transform of a registry entry, as `Pattern.transform` applies it. -/
def applyTransformF (f : FmtChar) (s : String) : String :=
  match f.transform with
  | some t => t s
  | none => s

/-- Every registry transform yields a one-character string on input its
validator accepts (true of the default registry). -/
def RegistryOneChar (r : Registry) : Prop :=
  ∀ k f, r k = some f → ∀ str : String, f.validate (some str) = true →
    (applyTransformF f str).length = 1

/-- Structural facts about a context under which the engine is well behaved:
non-revealing mask, one-character placeholder shared by engine and pattern,
one-character-producing registry, editable flags backed by registry entries,
and aligned flag/pattern lengths.  `mkMask` establishes all of these when
called with a single-character placeholder, a non-revealing mask and a
`RegistryOneChar` registry. -/
structure NiceCtx (ctx : Ctx) : Prop where
  nonReveal : ctx.pat.isRevealingMask = false
  phOne : ctx.placeholderChar.length = 1
  phEq : ctx.pat.placeholderChar = ctx.placeholderChar
  regOne : RegistryOneChar ctx.pat.registry
  edBacked : ∀ i, ctx.pat.editable.getD i false = true →
    (ctx.pat.registry (ctx.pat.pattern.getD i ' ')).isSome = true
  lenEq : ctx.pat.editable.length = ctx.pat.pattern.length

/-- A well-formed entry for editable slot `i`: the placeholder, or the
transform of some character string the slot's validator accepts. -/
def entryOK (ctx : Ctx) (i : Nat) (e : JSVal) : Prop :=
  e = some ctx.pat.placeholderChar ∨
    ∃ c : String, validAtN ctx.pat (some c) i = true ∧ e = some (transformAtN ctx.pat c i)

/-- The buffer invariant of claim C3: full pattern length, literals fixed,
editable slots hold the placeholder or a validated-and-transformed character. -/
def ValueWF (ctx : Ctx) (v : List JSVal) : Prop :=
  v.length = ctx.pat.pattern.length ∧
  ∀ i, i < ctx.pat.pattern.length →
    (ctx.pat.editable.getD i false = true → entryOK ctx i (v.getD i none)) ∧
    (ctx.pat.editable.getD i false = false →
      v.getD i none = some ((ctx.pat.pattern.getD i ' ').toString))

/-- The engine-wide invariant: the live buffer is well formed with
one-character entries, and every history snapshot is the join of such a buffer. -/
def EngineWF (ctx : Ctx) (s : MaskState) : Prop :=
  (ValueWF ctx s.value ∧ SingleEntries s.value) ∧
  ∀ h ∈ s.history, ∃ v, (ValueWF ctx v ∧ SingleEntries v) ∧ h.value = joinValue v

/-- The newest history entry (the one `undo` inspects first). -/
def topItem (s : MaskState) : HistoryItem :=
  (s.history.getLast?).getD ⟨"", ⟨0, 0⟩, none, false⟩

/-- Invariant maintained by `input`/`backspace` runs from a fresh engine: not
replaying history, and the newest snapshot's selection provably differs from
the live one (in a way each coalesced step preserves).  This is what makes the
first `undo` push its synthetic redo target. -/
def CoalesceInv (s : MaskState) : Prop :=
  s.historyIndex = none ∧
  ((s.history = [] ∧ s.lastOp = none) ∨
    (s.history ≠ [] ∧
      ((s.lastOp = some "input" ∧ (topItem s).selection.start < s.selection.start) ∨
       (s.lastOp = some "backspace" ∧
         (s.selection.stop < (topItem s).selection.stop ∨
          s.selection.start < (topItem s).selection.start ∨
          ((topItem s).selection.stop < (topItem s).selection.start ∧
            s.selection.start = s.selection.stop ∧
            s.selection.start ≤ (topItem s).selection.start))))))

/-- The editable-slot entry contents of the buffer from slot `i` on (fuel
`pattern.length - i`), used to align `formatValue`'s value cursor in C5. -/
def rawTailAux (p : PatternT) (v : List JSVal) : Nat → Nat → List String
  | 0, _ => []
  | fuel + 1, i =>
    if p.editable.getD i false then
      ((v.getD i none).getD "") :: rawTailAux p v fuel (i + 1)
    else rawTailAux p v fuel (i + 1)

/-- Conditions under which `setValue(getRawValue())` restores a buffer
exactly: a non-revealing full-length buffer whose literal slots carry the
pattern characters and whose editable entries are single characters that are
either the (everywhere-invalid) placeholder or fixed points of their slot's
transform that the slot accepts — and no editable entry coincides with any
literal character of the pattern (else `formatValue`'s literal-consumption
step would misalign the value cursor). -/
structure RoundTripWF (ctx : Ctx) (v : List JSVal) : Prop where
  lenV : v.length = ctx.pat.pattern.length
  nonReveal : ctx.pat.isRevealingMask = false
  lit : ∀ i, i < ctx.pat.pattern.length → ctx.pat.editable.getD i false = false →
    v.getD i none = some ((ctx.pat.pattern.getD i ' ').toString)
  ed : ∀ i, i < ctx.pat.pattern.length → ctx.pat.editable.getD i false = true →
    ∃ c : Char, v.getD i none = some c.toString ∧
      (c.toString = ctx.pat.placeholderChar ∨
        (validAtN ctx.pat (some c.toString) i = true ∧
          transformAtN ctx.pat c.toString i = c.toString))
  phInvalid : ∀ i, i < ctx.pat.pattern.length → ctx.pat.editable.getD i false = true →
    validAtN ctx.pat (some ctx.pat.placeholderChar) i = false
  noLitClash : ∀ i j, i < ctx.pat.pattern.length → j < ctx.pat.pattern.length →
    ctx.pat.editable.getD i false = true → ctx.pat.editable.getD j false = false →
    v.getD i none ≠ some ((ctx.pat.pattern.getD j ' ').toString)

/-- Mask `"1-1"`, empty value, default placeholder (non-revealing). -/
def dashMask : Ctx × MaskState := mkMaskD "1-1" defaultRegistry "_" false "" ⟨0, 0⟩

/-- The `"1-1"` engine after typing `5`. -/
def dashTyped : MaskState := (inputOp dashMask.1 "5" dashMask.2).2

/-! ### The heap model of selection objects (for C1)

`undo()`/`redo()` execute `this.selection = historyItem.selection`: the live
selection becomes the *same object* as the one stored in the history item, so
later in-place writes such as `this.selection.start = ...` in `paste` mutate
the stored snapshot too.  To capture this the heap model keeps every selection
object ever allocated in a store and lets history items hold references.  All
other mutable pieces have value semantics in the source: strings are
immutable, `value` arrays and `_lastSelection` are only ever installed as
fresh copies (`slice()`/`copy(...)`/`split('')`), and history item records
never have fields reassigned — only their shared selection objects mutate. -/

/-- A history entry as the program stores it: the selection is a reference
into the selection-object store, not a value. -/
structure HRec where
  value : String
  selRef : Nat
  lastOp : Option String
  startUndo : Bool
deriving DecidableEq, Repr

/-- Engine state with the JS object identity of selections made explicit:
`selRef` is the object `this.selection` currently points at. -/
structure HMask where
  store : List Sel
  selRef : Nat
  value : List JSVal
  history : List HRec
  historyIndex : Option Nat
  lastOp : Option String
  lastSelection : Option Sel
deriving DecidableEq, Repr

/-- Dereference `this.selection`. -/
def readSel (s : HMask) : Sel := s.store.getD s.selRef ⟨0, 0⟩

/-- An in-place write `this.selection.start/end = ...`: mutates the pointed-to
object, visible through every reference to it (in particular through a history
item aliased by `undo`/`redo`). -/
def writeSel (s : HMask) (sel : Sel) : HMask := { s with store := s.store.set s.selRef sel }

/-- The observable engine state of a heap state: dereference the live
selection and every selection stored in the history. -/
def observeH (s : HMask) : MaskState :=
  { value := s.value
    selection := readSel s
    history := s.history.map
      (fun r => ⟨r.value, s.store.getD r.selRef ⟨0, 0⟩, r.lastOp, r.startUndo⟩)
    historyIndex := s.historyIndex
    lastOp := s.lastOp
    lastSelection := s.lastSelection }

/-- `getRawValue` on a buffer. -/
def rawValueV (ctx : Ctx) (v : List JSVal) : String :=
  (List.range v.length).foldl
    (fun acc i =>
      if ctx.pat.editable.getD i false then acc ++ (v.getD i none).getD "" else acc)
    ""

/-- `InputMask.getValue` on the heap model: identical to `getValueS` — it
touches only the value buffer, never a selection object. -/
def getValueH (ctx : Ctx) (s : HMask) : String × HMask :=
  if ctx.pat.isRevealingMask then
    let v2 := formatValue ctx.pat (splitCand (rawValueV ctx s.value))
    (joinValue v2, { s with value := v2 })
  else (joinValue s.value, s)

/-- The history block of `input` on the heap model: splice away redo entries,
then push the pre-operation snapshot unless the operation coalesces.  The
pushed entry allocates the `copy(this.selection)` object taken at the start of
`input` (`selectionBefore`); when nothing is pushed that copy is unreachable
garbage and is not materialised.  Returns the new store and history. -/
def histAfterH (opName : String) (valueBefore : String) (selectionBefore : Sel)
    (store : List Sel) (history : List HRec) (historyIndex : Option Nat)
    (lastOp : Option String) (lastSelection : Option Sel) : List Sel × List HRec :=
  let hist1 := if historyIndex.isSome then history.take (historyIndex.getD 0) else history
  let pushNeeded : Bool :=
    decide (lastOp ≠ some opName) || decide (selectionBefore.start ≠ selectionBefore.stop) ||
      (match lastSelection with
       | some ls => decide (selectionBefore.start ≠ ls.start)
       | none => false)
  if pushNeeded then
    (store ++ [selectionBefore], hist1 ++ [⟨valueBefore, store.length, lastOp, false⟩])
  else (store, hist1)

/-- The tail of `input` after the character store (source lines 106–148):
blank the editable remainder of an overwritten selection, advance the cursor
with in-place writes to the live selection object, then run the history block
(splice away redo entries, null the history index, push unless coalescing). -/
def inputCommitH (ctx : Ctx) (valueBefore : String) (selectionBefore : Sel)
    (s1 : HMask) (inputIndex : Int) (v : List JSVal) : Bool × HMask :=
  let v2 := inputBlank ctx ((readSel s1).stop - 1 - inputIndex).toNat
    ((readSel s1).stop - 1) inputIndex v
  let ns := skipStatic ctx ctx.pat.pattern.length (inputIndex + 1)
  let s2 := writeSel s1 ⟨ns, ns⟩
  let hh := histAfterH "input" valueBefore selectionBefore s2.store s2.history
    s2.historyIndex s2.lastOp s2.lastSelection
  (true,
    { store := hh.1
      selRef := s2.selRef
      value := v2
      history := hh.2
      historyIndex := none
      lastOp := some "input"
      lastSelection := some ⟨ns, ns⟩ })

/-- `InputMask.input(char)` on the heap model: the same control flow as
`inputOp`, with the cursor updates of lines 119–128 as in-place writes to the
live selection object. -/
def inputH (ctx : Ctx) (c : String) (s : HMask) : Bool × HMask :=
  if (readSel s).start = (readSel s).stop ∧
      (readSel s).start = (ctx.pat.pattern.length : Int) then
    (false, s)
  else
    let selectionBefore := readSel s
    let gv := getValueH ctx s
    let valueBefore := gv.1
    let s1 := gv.2
    let inputIndex : Int := effIndex ctx (readSel s1).start
    if isEditableI ctx.pat inputIndex then
      if !(validAtN ctx.pat (some c) inputIndex.toNat) then (false, s1)
      else inputCommitH ctx valueBefore selectionBefore s1 inputIndex
        (jsSet s1.value inputIndex (transformAtN ctx.pat c inputIndex.toNat))
    else inputCommitH ctx valueBefore selectionBefore s1 inputIndex s1.value

/-- `InputMask.undo()` on the heap model: the restore
`this.selection = historyItem.selection` repoints the live selection at the
*stored object* — an alias, not a copy; the synthetic redo entry pushes a
fresh `copy(this.selection)`. -/
def undoH (ctx : Ctx) (s : HMask) : Option Bool × HMask :=
  if s.history.length = 0 ∨ s.historyIndex = some 0 then (some false, s)
  else
    match s.historyIndex with
    | none =>
      let idx := s.history.length - 1
      let item := s.history.getD idx ⟨"", 0, none, false⟩
      let gv := getValueH ctx s
      let value := gv.1
      let s1 := gv.2
      let itemSel := s1.store.getD item.selRef ⟨0, 0⟩
      let hs :=
        if item.value ≠ value ∨ itemSel.start ≠ (readSel s1).start ∨
            itemSel.stop ≠ (readSel s1).stop then
          (s1.store ++ [readSel s1],
            s1.history ++ [⟨value, s1.store.length, s1.lastOp, true⟩])
        else (s1.store, s1.history)
      (some true,
        { store := hs.1
          selRef := item.selRef
          value := splitStr item.value
          history := hs.2
          historyIndex := some idx
          lastOp := item.lastOp
          lastSelection := s1.lastSelection })
    | some k =>
      let k2 := k - 1
      match s.history.get? k2 with
      | some item =>
        (some true,
          { s with
            historyIndex := some k2
            value := splitStr item.value
            selRef := item.selRef
            lastOp := item.lastOp })
      | none => (none, { s with historyIndex := some k2 })

/-- `InputMask.redo()` on the heap model: as in `undoH`, the restore
`this.selection = historyItem.selection` aliases the live selection to the
stored object (when the synthetic last entry is popped, the alias target is
simply no longer part of the history). -/
def redoH (_ctx : Ctx) (s : HMask) : Option Bool × HMask :=
  if s.history.length = 0 ∨ s.historyIndex = none then (some false, s)
  else
    let k := s.historyIndex.getD 0 + 1
    match s.history.get? k with
    | some item =>
      if k = s.history.length - 1 then
        let hist2 := if item.startUndo then s.history.dropLast else s.history
        (some true,
          { s with
            historyIndex := none
            history := hist2
            value := splitStr item.value
            selRef := item.selRef
            lastOp := item.lastOp })
      else
        (some true,
          { s with
            historyIndex := some k
            value := splitStr item.value
            selRef := item.selRef
            lastOp := item.lastOp })
    | none => (none, { s with historyIndex := some k })

/-- The character-feeding loop of `paste` on the heap model.  The snapshot
consists of a copy of the value array, a reference to the `copy` of the
selection taken at the start of `paste`, a *shallow* slice of the history —
the same item records, whose selection objects stay shared with the live
engine — and the scalar fields.  The rollback installs the snapshot but keeps
the store: in-place mutations that reached a stored selection object survive. -/
def pasteLoopH (ctx : Ctx) (initValue : List JSVal) (initSelRef : Nat)
    (initLastOp : Option String) (initHistory : List HRec)
    (initHistoryIndex : Option Nat) (initLastSelection : Option Sel) :
    List Char → HMask → Bool × HMask
  | [], s => (true, s)
  | c :: rest, s =>
    if (readSel s).start ≤ (ctx.pat.lastEditableIndex : Int) then
      let r := inputH ctx c.toString s
      if r.1 then
        pasteLoopH ctx initValue initSelRef initLastOp initHistory initHistoryIndex
          initLastSelection rest r.2
      else
        let s' := r.2
        if decide ((readSel s').start > 0) &&
            !(isEditableI ctx.pat ((readSel s').start - 1)) &&
            decide (some c.toString = patAt ctx.pat ((readSel s').start - 1).toNat) then
          pasteLoopH ctx initValue initSelRef initLastOp initHistory initHistoryIndex
            initLastSelection rest s'
        else
          (false,
            { store := s'.store
              selRef := initSelRef
              value := initValue
              history := initHistory
              historyIndex := initHistoryIndex
              lastOp := initLastOp
              lastSelection := initLastSelection })
    else (true, s)

/-- `InputMask.paste(input)` on the heap model.  `initialState.selection`
allocates `copy(this.selection)` without repointing the live selection; the
prefix step of line 255 is an in-place write (`this.selection.start = ...`)
that goes through whatever object the live selection aliases. -/
def pasteH (ctx : Ctx) (inputStr : String) (s : HMask) : Bool × HMask :=
  let initSelRef := s.store.length
  let s0 : HMask := { s with store := s.store ++ [readSel s] }
  let fe : Int := ctx.pat.firstEditableIndex
  if (readSel s0).start < fe then
    let l := (fe - (readSel s0).start).toNat
    if (List.range l).all (fun i => decide (some (charAt inputStr i) = patAt ctx.pat i)) then
      let pasted := inputStr.drop l
      let s1 := writeSel s0 ⟨fe, (readSel s0).stop⟩
      pasteLoopH ctx s0.value initSelRef s0.lastOp s0.history s0.historyIndex
        s0.lastSelection pasted.data s1
    else (false, s0)
  else
    pasteLoopH ctx s0.value initSelRef s0.lastOp s0.history s0.historyIndex
      s0.lastSelection inputStr.data s0

/-- The constructor on the heap model: a one-object store holding the supplied
selection, which `this.selection` points at. -/
def hmkMask (patternSrc : String) (registry : Registry) (placeholderChar : String)
    (isRevealingMask : Bool) (value0 : String) (sel0 : Sel) :
    Except String (Ctx × HMask) :=
  match mkMask patternSrc registry placeholderChar isRevealingMask value0 sel0 with
  | .error e => .error e
  | .ok (ctx, ms) =>
    .ok (ctx,
      { store := [sel0]
        selRef := 0
        value := ms.value
        history := []
        historyIndex := none
        lastOp := none
        lastSelection := some sel0 })

/-- A dummy heap engine (only the default of `Option.getD` below). -/
def dummyMaskH : Ctx × HMask :=
  ⟨dummyMask.1, ⟨[⟨0, 0⟩], 0, [], [], none, none, none⟩⟩

/-- Unwrap a successful heap-model construction. -/
def hmkMaskD (patternSrc : String) (registry : Registry) (placeholderChar : String)
    (isRevealingMask : Bool) (value0 : String) (sel0 : Sel) : Ctx × HMask :=
  (hmkMask patternSrc registry placeholderChar isRevealingMask value0 sel0).toOption.getD
    dummyMaskH

/-- Heap-model mask `"-1"`: a literal, then a digit slot. -/
def neg1MaskH : Ctx × HMask := hmkMaskD "-1" defaultRegistry "_" false "" ⟨0, 0⟩

/-- Heap-model mask `"A1"`, empty value. -/
def a1MaskH : Ctx × HMask := hmkMaskD "A1" defaultRegistry "_" false "" ⟨0, 0⟩

/-- The `"-1"` heap engine after `input('5')` and `undo()` — the live
selection now aliases the selection stored in `history[0]`. -/
def neg1Undone : HMask := (undoH neg1MaskH.1 (inputH neg1MaskH.1 "5" neg1MaskH.2).2).2

/-! ## Theorems -/

/-- Reading a freshly set list cell. -/
theorem getD_set_self {α : Type} (l : List α) (i : Nat) (x d : α) (h : i < l.length) :
    (l.set i x).getD i d = x := by
  rw [List.getD_eq_getElem?_getD]
  simp [List.getElem?_set_self', h]

/-- Reading an untouched list cell. -/
theorem getD_set_ne {α : Type} (l : List α) (i j : Nat) (x d : α) (h : i ≠ j) :
    (l.set i x).getD j d = l.getD j d := by
  rw [List.getD_eq_getElem?_getD, List.getD_eq_getElem?_getD, List.getElem?_set_ne h]

/-- `getD` on the left part of an append. -/
theorem getD_append_left {α : Type} (l l2 : List α) (n : Nat) (d : α) (h : n < l.length) :
    (l ++ l2).getD n d = l.getD n d := by
  rw [List.getD_eq_getElem?_getD, List.getD_eq_getElem?_getD, List.getElem?_append]
  rw [if_pos h]

/-- `getD` within bounds is a member. -/
theorem getD_mem {α : Type} (l : List α) (n : Nat) (d : α) (h : n < l.length) :
    l.getD n d ∈ l := by
  rw [List.getD_eq_getElem?_getD, List.getElem?_eq_getElem h]
  exact List.getElem_mem h


/-- The character-feeding loop of `paste` either succeeds or hands back
exactly the snapshot it was given. -/
theorem pasteLoop_false_eq (ctx : Ctx) (init : MaskState) :
    ∀ (chars : List Char) (s : MaskState),
      (pasteLoop ctx init chars s).1 = false → (pasteLoop ctx init chars s).2 = init := by
  intro chars
  induction chars with
  | nil => intro s h; simp [pasteLoop] at h
  | cons c rest ih =>
    intro s h
    simp only [pasteLoop] at h ⊢
    by_cases h1 : s.selection.start ≤ (ctx.pat.lastEditableIndex : Int)
    · simp only [if_pos h1] at h ⊢
      by_cases h2 : (inputOp ctx c.toString s).1 = true
      · simp only [h2, if_true] at h ⊢
        exact ih _ h
      · simp only [h2, if_false, Bool.false_eq_true] at h ⊢
        by_cases h3 :
            (decide ((inputOp ctx c.toString s).2.selection.start > 0) &&
              !(isEditableI ctx.pat ((inputOp ctx c.toString s).2.selection.start - 1)) &&
              decide (some c.toString =
                patAt ctx.pat ((inputOp ctx c.toString s).2.selection.start - 1).toNat)) = true
        · simp only [h3, if_true] at h ⊢
          exact ih _ h
        · simp only [h3, if_false, Bool.false_eq_true] at h ⊢
    · rw [if_neg h1] at h
      simp at h

/-- The pre-paste snapshot taken by `paste` covers every mutable scalar field
of the value-level state. -/
theorem paste_snapshot_eq (s : MaskState) :
    ({ value := s.value, selection := s.selection, lastOp := s.lastOp,
       history := s.history, historyIndex := s.historyIndex,
       lastSelection := s.lastSelection } : MaskState) = s := rfl

/-- A failing `pasteOp` on the value-level model hands back the snapshot; on
the heap model this is only the observable truth when the live selection is
not aliased into the history (see the C1 theorems). -/
theorem pasteOp_false_rolls_back (ctx : Ctx) (inp : String) (s : MaskState)
    (h : (pasteOp ctx inp s).1 = false) : (pasteOp ctx inp s).2 = s := by
  simp only [pasteOp] at h ⊢
  by_cases h1 : s.selection.start < (ctx.pat.firstEditableIndex : Int)
  · simp only [if_pos h1] at h ⊢
    by_cases h2 :
        ((List.range ((ctx.pat.firstEditableIndex : Int) - s.selection.start).toNat).all
          (fun i => decide (some (charAt inp i) = patAt ctx.pat i))) = true
    · simp only [h2, if_true] at h ⊢
      exact pasteLoop_false_eq ctx s _ _ h
    · simp only [h2, if_false, Bool.false_eq_true] at h ⊢
  · simp only [if_neg h1] at h ⊢
    exact pasteLoop_false_eq ctx s _ _ h

/-- `getValue` never touches the selection store or the live reference. -/
theorem getValueH_frame (ctx : Ctx) (s : HMask) :
    (getValueH ctx s).2.store = s.store ∧ (getValueH ctx s).2.selRef = s.selRef ∧
    (getValueH ctx s).2.history = s.history := by
  rw [getValueH]
  by_cases h : ctx.pat.isRevealingMask = true
  · rw [if_pos h]
    exact ⟨rfl, rfl, rfl⟩
  · rw [if_neg h]
    exact ⟨rfl, rfl, rfl⟩

/-- An in-place selection write leaves every other store cell unchanged. -/
theorem writeSel_frame (s : HMask) (sel : Sel) (j : Nat) (h : j ≠ s.selRef) :
    (writeSel s sel).store.getD j ⟨0, 0⟩ = s.store.getD j ⟨0, 0⟩ := by
  rw [writeSel]
  exact getD_set_ne s.store s.selRef j sel ⟨0, 0⟩ (fun he => h he.symm)

/-- The history block of `input` only ever appends to the store. -/
theorem histAfterH_store_frame (opName valueBefore : String) (selectionBefore : Sel)
    (store : List Sel) (history : List HRec) (historyIndex : Option Nat)
    (lastOp : Option String) (lastSelection : Option Sel) :
    store.length ≤ (histAfterH opName valueBefore selectionBefore store history
      historyIndex lastOp lastSelection).1.length ∧
    ∀ j, j < store.length →
      (histAfterH opName valueBefore selectionBefore store history
        historyIndex lastOp lastSelection).1.getD j ⟨0, 0⟩ = store.getD j ⟨0, 0⟩ := by
  simp only [histAfterH]
  by_cases hp : (decide (lastOp ≠ some opName) ||
      decide (selectionBefore.start ≠ selectionBefore.stop) ||
      (match lastSelection with
       | some ls => decide (selectionBefore.start ≠ ls.start)
       | none => false)) = true
  · rw [if_pos hp]
    refine ⟨by simp, ?_⟩
    intro j hj
    exact getD_append_left store [selectionBefore] j ⟨0, 0⟩ hj
  · rw [if_neg hp]
    exact ⟨le_refl _, fun j _ => rfl⟩

/-- Frame property of the commit tail of `input`: the live reference is kept,
the store is only written at that reference or extended. -/
theorem inputCommitH_frame (ctx : Ctx) (valueBefore : String) (selectionBefore : Sel)
    (s1 : HMask) (inputIndex : Int) (v : List JSVal) :
    (inputCommitH ctx valueBefore selectionBefore s1 inputIndex v).2.selRef = s1.selRef ∧
    s1.store.length ≤
      (inputCommitH ctx valueBefore selectionBefore s1 inputIndex v).2.store.length ∧
    ∀ j, j ≠ s1.selRef → j < s1.store.length →
      (inputCommitH ctx valueBefore selectionBefore s1 inputIndex v).2.store.getD j ⟨0, 0⟩ =
        s1.store.getD j ⟨0, 0⟩ := by
  simp only [inputCommitH]
  generalize skipStatic ctx ctx.pat.pattern.length (inputIndex + 1) = ns
  rcases histAfterH_store_frame "input" valueBefore selectionBefore
      (writeSel s1 ⟨ns, ns⟩).store (writeSel s1 ⟨ns, ns⟩).history
      (writeSel s1 ⟨ns, ns⟩).historyIndex (writeSel s1 ⟨ns, ns⟩).lastOp
      (writeSel s1 ⟨ns, ns⟩).lastSelection with ⟨hl, hc⟩
  have hwlen : (writeSel s1 ⟨ns, ns⟩).store.length = s1.store.length := by
    show (s1.store.set s1.selRef _).length = s1.store.length
    exact List.length_set s1.store _ _
  refine ⟨rfl, ?_, ?_⟩
  · exact le_trans (le_of_eq hwlen.symm) hl
  · intro j hj hjlt
    rw [hc j (by rw [hwlen]; exact hjlt)]
    exact writeSel_frame s1 ⟨ns, ns⟩ j hj

/-- Frame property of `input` on the heap model: the live selection reference
is unchanged, the store only grows or is written through that reference, and
every other already-allocated cell keeps its contents. -/
theorem inputH_frame (ctx : Ctx) (c : String) (s : HMask) :
    (inputH ctx c s).2.selRef = s.selRef ∧
    s.store.length ≤ (inputH ctx c s).2.store.length ∧
    ∀ j, j ≠ s.selRef → j < s.store.length →
      (inputH ctx c s).2.store.getD j ⟨0, 0⟩ = s.store.getD j ⟨0, 0⟩ := by
  rcases getValueH_frame ctx s with ⟨hst, hsr, _⟩
  have hcommit : ∀ (vB : String) (sB : Sel) (ii : Int) (v : List JSVal),
      (inputCommitH ctx vB sB (getValueH ctx s).2 ii v).2.selRef = s.selRef ∧
      s.store.length ≤ (inputCommitH ctx vB sB (getValueH ctx s).2 ii v).2.store.length ∧
      ∀ j, j ≠ s.selRef → j < s.store.length →
        (inputCommitH ctx vB sB (getValueH ctx s).2 ii v).2.store.getD j ⟨0, 0⟩ =
          s.store.getD j ⟨0, 0⟩ := by
    intro vB sB ii v
    rcases inputCommitH_frame ctx vB sB (getValueH ctx s).2 ii v with ⟨h1, h2, h3⟩
    refine ⟨by rw [h1, hsr], ?_, ?_⟩
    · rw [← hst]
      exact h2
    · intro j hj hjlt
      rw [← hst]
      exact h3 j (by rw [hsr]; exact hj) (by rw [hst]; exact hjlt)
  simp only [inputH]
  by_cases h0 : (readSel s).start = (readSel s).stop ∧
      (readSel s).start = (ctx.pat.pattern.length : Int)
  · rw [if_pos h0]
    exact ⟨rfl, le_refl _, fun j _ _ => rfl⟩
  · rw [if_neg h0]
    by_cases h1 : isEditableI ctx.pat (effIndex ctx (readSel (getValueH ctx s).2).start) = true
    · rw [if_pos h1]
      by_cases h2 : (!(validAtN ctx.pat (some c)
          (effIndex ctx (readSel (getValueH ctx s).2).start).toNat)) = true
      · rw [if_pos h2]
        refine ⟨hsr, le_of_eq (by rw [hst]), ?_⟩
        intro j _ _
        rw [hst]
      · rw [if_neg h2]
        exact hcommit _ _ _ _
    · rw [if_neg h1]
      exact hcommit _ _ _ _

/-- Appending fresh objects to the store does not change what the engine
observes, as long as the live selection and every history entry reference
already-allocated cells. -/
theorem observeH_append (s : HMask)
    (hlive : s.selRef < s.store.length)
    (hvalid : ∀ r ∈ s.history, r.selRef < s.store.length) (sel : Sel) :
    observeH { s with store := s.store ++ [sel] } = observeH s := by
  simp only [observeH, readSel]
  refine MaskState.ext ?_ ?_ ?_ rfl rfl rfl
  · rfl
  · exact getD_append_left s.store [sel] s.selRef ⟨0, 0⟩ hlive
  · apply List.map_congr_left
    intro r hr
    rw [getD_append_left s.store [sel] r.selRef ⟨0, 0⟩ (hvalid r hr)]

/-- The heap-model paste loop, on failure, observably restores the snapshot:
value, live selection contents, resolved history, historyIndex, lastOp and
lastSelection — provided the live selection is not aliased into the history
and the loop state only differs from the snapshot through the live cell and
fresh allocations. -/
theorem pasteLoopH_false_obs (ctx : Ctx) (s : HMask)
    (hlive : s.selRef < s.store.length)
    (hvalid : ∀ r ∈ s.history, r.selRef < s.store.length)
    (hnoalias : ∀ r ∈ s.history, r.selRef ≠ s.selRef) :
    ∀ (chars : List Char) (scur : HMask),
      scur.selRef = s.selRef →
      s.store.length + 1 ≤ scur.store.length →
      (∀ j, j ≠ s.selRef → j < s.store.length + 1 →
        scur.store.getD j ⟨0, 0⟩ = (s.store ++ [readSel s]).getD j ⟨0, 0⟩) →
      (pasteLoopH ctx s.value s.store.length s.lastOp s.history s.historyIndex
          s.lastSelection chars scur).1 = false →
      observeH (pasteLoopH ctx s.value s.store.length s.lastOp s.history s.historyIndex
          s.lastSelection chars scur).2 = observeH s := by
  intro chars
  induction chars with
  | nil =>
    intro scur _ _ _ hfalse
    simp [pasteLoopH] at hfalse
  | cons c rest ih =>
    intro scur hsel hlen hframe hfalse
    have hnext : ∀ s2 : HMask, s2 = (inputH ctx c.toString scur).2 →
        s2.selRef = s.selRef ∧ s.store.length + 1 ≤ s2.store.length ∧
        (∀ j, j ≠ s.selRef → j < s.store.length + 1 →
          s2.store.getD j ⟨0, 0⟩ = (s.store ++ [readSel s]).getD j ⟨0, 0⟩) := by
      intro s2 hs2
      subst hs2
      rcases inputH_frame ctx c.toString scur with ⟨hfs, hfl, hfc⟩
      refine ⟨by rw [hfs, hsel], le_trans hlen hfl, ?_⟩
      intro j hj hjlt
      rw [hfc j (by rw [hsel]; exact hj) (by omega)]
      exact hframe j hj hjlt
    simp only [pasteLoopH] at hfalse ⊢
    by_cases h1 : (readSel scur).start ≤ (ctx.pat.lastEditableIndex : Int)
    · simp only [if_pos h1] at hfalse ⊢
      by_cases h2 : (inputH ctx c.toString scur).1 = true
      · simp only [h2, if_true] at hfalse ⊢
        rcases hnext _ rfl with ⟨ha, hb, hc⟩
        exact ih _ ha hb hc hfalse
      · simp only [h2, if_false, Bool.false_eq_true] at hfalse ⊢
        by_cases h3 : (decide ((readSel (inputH ctx c.toString scur).2).start > 0) &&
            !(isEditableI ctx.pat ((readSel (inputH ctx c.toString scur).2).start - 1)) &&
            decide (some c.toString =
              patAt ctx.pat ((readSel (inputH ctx c.toString scur).2).start - 1).toNat)) = true
        · simp only [h3, if_true] at hfalse ⊢
          rcases hnext _ rfl with ⟨ha, hb, hc⟩
          exact ih _ ha hb hc hfalse
        · simp only [h3, if_false, Bool.false_eq_true] at hfalse ⊢
          rcases hnext _ rfl with ⟨ha, hb, hc⟩
          simp only [observeH, readSel]
          refine MaskState.ext rfl ?_ ?_ rfl rfl rfl
          · dsimp only
            rw [hc s.store.length (by omega) (by omega)]
            rw [List.getD_eq_getElem?_getD, List.getElem?_concat_length]
            rfl
          · dsimp only
            apply List.map_congr_left
            intro r hr
            rw [hc r.selRef (hnoalias r hr) (by have := hvalid r hr; omega)]
            rw [getD_append_left s.store [readSel s] r.selRef ⟨0, 0⟩ (hvalid r hr)]
    · rw [if_neg h1] at hfalse
      simp at hfalse

/-- C1 (amended): `paste` is *observably* atomic on failure provided the live
selection object is not aliased to the selection stored in any history entry
(such aliases are created by `undo()`/`redo()`, which execute
`this.selection = historyItem.selection`): whenever `paste` returns `false` —
literal prefix mismatch before the first editable slot, or a character
rejected by `input()` that does not match the literal slot behind the cursor —
the observable engine state (value buffer, the live selection's contents, the
history with its stored selections resolved, historyIndex, lastOp,
lastSelection) is exactly what it was before the call.  Without the
no-aliasing proviso the prefix step's in-place `this.selection.start` write
(line 255) can leak into an aliased history snapshot and survive the
rollback. -/
theorem C1_paste_atomic_noalias (ctx : Ctx) (inp : String) (s : HMask)
    (hlive : s.selRef < s.store.length)
    (hvalid : ∀ r ∈ s.history, r.selRef < s.store.length)
    (hnoalias : ∀ r ∈ s.history, r.selRef ≠ s.selRef)
    (h : (pasteH ctx inp s).1 = false) :
    observeH (pasteH ctx inp s).2 = observeH s := by
  simp only [pasteH] at h ⊢
  by_cases h1 : (readSel { s with store := s.store ++ [readSel s] }).start <
      (ctx.pat.firstEditableIndex : Int)
  · rw [if_pos h1] at h ⊢
    by_cases h2 :
        ((List.range ((ctx.pat.firstEditableIndex : Int) -
            (readSel { s with store := s.store ++ [readSel s] }).start).toNat).all
          (fun i => decide (some (charAt inp i) = patAt ctx.pat i))) = true
    · rw [if_pos h2] at h ⊢
      refine pasteLoopH_false_obs ctx s hlive hvalid hnoalias _ _ rfl ?_ ?_ h
      · show s.store.length + 1 ≤ ((s.store ++ [readSel s]).set _ _).length
        rw [List.length_set]
        simp
      · intro j hj _
        show ((s.store ++ [readSel s]).set s.selRef _).getD j ⟨0, 0⟩ =
          (s.store ++ [readSel s]).getD j ⟨0, 0⟩
        exact getD_set_ne _ s.selRef j _ (⟨0, 0⟩ : Sel) (fun he => hj he.symm)
    · rw [if_neg h2] at h ⊢
      exact observeH_append s hlive hvalid (readSel s)
  · rw [if_neg h1] at h ⊢
    refine pasteLoopH_false_obs ctx s hlive hvalid hnoalias _ _ rfl ?_ (fun j _ _ => rfl) h
    show s.store.length + 1 ≤ (s.store ++ [readSel s]).length
    simp

/-- C1 witness: on the heap-model mask `"A1"` (fresh engine, no aliasing),
pasting `"xy"` is rejected and the observable state is exactly the freshly
constructed one. -/
theorem C1_paste_atomic_noalias_witness :
    (pasteH a1MaskH.1 "xy" a1MaskH.2).1 = false ∧
    observeH (pasteH a1MaskH.1 "xy" a1MaskH.2).2 = observeH a1MaskH.2 :=
  ⟨by decide,
    C1_paste_atomic_noalias a1MaskH.1 "xy" a1MaskH.2 (by decide) (by decide) (by decide)
      (by decide)⟩

/-- C1 fails as stated: on mask `"-1"`, `input('5')` pushes a history entry
with selection `{0,0}`; `undo()` restores it and aliases the live selection to
that stored object; `paste("-x")` matches the literal prefix, writes
`selection.start = 1` in place — through the alias, into `history[0]` — and is
then rejected (`x` is not a digit).  The call returns `false`, yet the
observable state differs from the pre-paste state: `history[0]`'s stored
selection has become `{1,0}` and stays so after the rollback. -/
theorem C1_paste_aliasing_counterexample :
    (pasteH neg1MaskH.1 "-x" neg1Undone).1 = false ∧
    ((observeH neg1Undone).history.getD 0 ⟨"", ⟨0, 0⟩, none, false⟩).selection = ⟨0, 0⟩ ∧
    ((observeH (pasteH neg1MaskH.1 "-x" neg1Undone).2).history.getD 0
      ⟨"", ⟨0, 0⟩, none, false⟩).selection = ⟨1, 0⟩ ∧
    ¬(observeH (pasteH neg1MaskH.1 "-x" neg1Undone).2 = observeH neg1Undone) := by
  exact ⟨by decide, by decide, by decide, by decide⟩

/-- C4 (counterexample): on mask `"(111) 111-1111"` with empty value,
`input('5')` at selection `{0,0}` moves the selection to `{2,2}` — the cursor
advances to the slot after the stored digit — not to `{1,1}` as claimed. -/
theorem C4_selection_counterexample :
    (inputOp phoneMask.1 "5" phoneMask.2).2.selection ≠ (⟨1, 1⟩ : Sel) := by decide

/-- C4 (amended): mask `"(111) 111-1111"` with empty value renders
`"(___) ___-____"`; `input('5')` at `{0,0}` succeeds, the buffer becomes
`"(5__) ___-____"` and the selection becomes `{2,2}`. -/
theorem C4_phone_scenario_amended :
    (mkMask "(111) 111-1111" defaultRegistry "_" false "" ⟨0, 0⟩).isOk = true ∧
    (getValueS phoneMask.1 phoneMask.2).1 = "(___) ___-____" ∧
    (inputOp phoneMask.1 "5" phoneMask.2).1 = true ∧
    joinValue (inputOp phoneMask.1 "5" phoneMask.2).2.value = "(5__) ___-____" ∧
    (inputOp phoneMask.1 "5" phoneMask.2).2.selection = (⟨2, 2⟩ : Sel) := by decide

/-- C10: constructing an `InputMask` with `placeholderChar = ""` is accepted;
the `Pattern` silently falls back to `'_'` (so `getValue` pads with `'_'`)
while the engine keeps `""` as its own placeholder and `backspace` writes the
empty string into the cleared editable slot — two different placeholder values
for the same mask. -/
theorem C10_empty_placeholder_split :
    (mkMask "11" defaultRegistry "" false "" ⟨0, 0⟩).isOk = true ∧
    emptyPhMask.1.pat.placeholderChar = "_" ∧
    emptyPhMask.1.placeholderChar = "" ∧
    (getValueS emptyPhMask.1 emptyPhMask.2).1 = "__" ∧
    (backspaceOp emptyPhMask.1 (inputOp emptyPhMask.1 "1" emptyPhMask.2).2).2.value =
      [some "", some "_"] := by decide

/-- A source whose scan hits a final unconsumed escape character fails with
the `UnterminatedEscape` error, for every registry. -/
theorem parseSlots_raw_escape (registry : Registry) :
    ∀ src : List Char, endsRawEscape src = true →
      parseSlots registry src = .error "InputMask: pattern ends with a raw \\"
  | [] => by intro h; simp [endsRawEscape] at h
  | [c] => by
    intro h
    simp only [endsRawEscape, decide_eq_true_eq] at h
    simp [parseSlots, h]
  | c :: c2 :: rest => by
    intro h
    simp only [endsRawEscape] at h
    by_cases hc : c = ESCAPE_CHAR
    · rw [if_pos hc] at h
      simp only [parseSlots, if_pos hc]
      rw [parseSlots_raw_escape registry rest h]
      rfl
    · rw [if_neg hc] at h
      simp only [parseSlots, if_neg hc]
      rw [parseSlots_raw_escape registry (c2 :: rest) h]
      rfl

/-- On success the scan emits exactly one slot per escape pair or plain
character: the slot count is the collapsed source length. -/
theorem parseSlots_length (registry : Registry) :
    ∀ (src : List Char) (slots : List (Char × Bool)),
      parseSlots registry src = .ok slots → slots.length = collapsedLen src
  | [], slots => by
    intro h
    simp only [parseSlots] at h
    cases h
    rfl
  | [c], slots => by
    intro h
    simp only [parseSlots] at h
    by_cases hc : c = ESCAPE_CHAR
    · rw [if_pos hc] at h
      cases h
    · rw [if_neg hc] at h
      simp only [parseSlots, Except.map] at h
      cases h
      simp [collapsedLen, hc]
  | c :: c2 :: rest, slots => by
    intro h
    simp only [parseSlots] at h
    by_cases hc : c = ESCAPE_CHAR
    · rw [if_pos hc] at h
      rcases hr : parseSlots registry rest with e | slots'
      · rw [hr] at h; cases h
      · rw [hr] at h
        simp only [Except.map] at h
        cases h
        simp only [collapsedLen, if_pos hc, List.length_cons]
        rw [parseSlots_length registry rest slots' hr]
        omega
    · rw [if_neg hc] at h
      rcases hr : parseSlots registry (c2 :: rest) with e | slots'
      · rw [hr] at h; cases h
      · rw [hr] at h
        simp only [Except.map] at h
        cases h
        simp only [collapsedLen, if_neg hc, List.length_cons]
        rw [parseSlots_length registry (c2 :: rest) slots' hr]
        omega

/-- `findIdx?` finds nothing in an all-false flag list, from any start index. -/
theorem findIdx_id_none :
    ∀ (l : List Bool) (n : Nat), (∀ b ∈ l, b = false) → List.findIdx? id l n = none := by
  intro l
  induction l with
  | nil => intro n _; rfl
  | cons b rest ih =>
    intro n h
    have hb : b = false := h b (List.mem_cons_self b rest)
    simp only [List.findIdx?, hb, id_eq, Bool.false_eq_true, if_false]
    exact ih (n + 1) (fun x hx => h x (List.mem_cons_of_mem b hx))

/-- `findIdx?` finds nothing in an all-false flag list. -/
theorem findFirstTrue_none (l : List Bool) (h : ∀ b ∈ l, b = false) :
    findFirstTrue l = none :=
  findIdx_id_none l 0 h

/-- C6: escape pairs compile to a single literal slot even for registry
symbols (so the compiled length is the collapsed source length), a source
ending in an unescaped escape character fails compilation, a source with no
editable slot fails compilation, and the mask `"\\1"` (backslash, backslash,
`1`) compiles to a literal backslash at index 0 and an editable digit slot at
index 1. -/
theorem C6_escape_compilation :
    (mkPattern "\\\\1" defaultRegistry "_" false).toOption.map
        (fun p => (p.pattern, p.editable, p.firstEditableIndex, p.lastEditableIndex)) =
      some (['\\', '1'], [false, true], 1, 1) ∧
    (∀ (registry : Registry) (src : List Char), endsRawEscape src = true →
      parseSlots registry src = .error "InputMask: pattern ends with a raw \\") ∧
    (∀ (registry : Registry) (src ph : String) (rev : Bool) (slots : List (Char × Bool)),
      parseSlots registry src.data = .ok slots → (∀ p ∈ slots, p.2 = false) →
      mkPattern src registry ph rev =
        .error ("InputMask: pattern \"" ++ src ++ "\" does not contain any editable characters.")) ∧
    (∀ (registry : Registry) (src : List Char) (slots : List (Char × Bool)),
      parseSlots registry src = .ok slots → slots.length = collapsedLen src) := by
  refine ⟨by decide, parseSlots_raw_escape, ?_, parseSlots_length⟩
  intro registry src ph rev slots hok hall
  simp only [mkPattern, hok]
  rw [findFirstTrue_none]
  intro b hb
  rcases List.mem_map.mp hb with ⟨p, hp, hpe⟩
  rw [← hpe]
  exact hall p hp

/-- Witness for C6: the universally quantified parts applied to `"1\\"`
(raw-escape failure), `"-"` (no editable slot) and `"\\\\1"` (length 2 =
collapsed length of 3 source characters). -/
theorem C6_escape_compilation_witness :
    parseSlots defaultRegistry "1\\".data = .error "InputMask: pattern ends with a raw \\" ∧
    mkPattern "-" defaultRegistry "_" false =
      .error "InputMask: pattern \"-\" does not contain any editable characters." ∧
    [('\\', false), ('1', true)].length = collapsedLen "\\\\1".data :=
  ⟨C6_escape_compilation.2.1 defaultRegistry "1\\".data (by decide),
   C6_escape_compilation.2.2.1 defaultRegistry "-" "_" false [('-', false)] (by rfl)
     (by decide),
   C6_escape_compilation.2.2.2 defaultRegistry "\\\\1".data [('\\', false), ('1', true)]
     (by rfl)⟩

/-- C7: in revealing-mask mode `formatValue` stops at the first editable slot
reached once the candidate sequence is exhausted (and the validator rejects
the `undefined` read) and returns the buffer built so far — trailing slots
stay holes instead of placeholders; concretely the revealing mask `"111-111"`
after typing `"12"` yields `getValue() = "12"` and `getRawValue() = "12"`. -/
theorem C7_revealing_truncates
    (p : PatternT) (cand : List String) (fuel i vi : Nat) (buf : List JSVal)
    (hrev : p.isRevealingMask = true) (hi : i < p.pattern.length)
    (hed : p.editable.getD i false = true) (hvi : cand.length ≤ vi)
    (hval : validAtN p none i = false) :
    fvAux p cand (fuel + 1) i vi buf = buf ∧
    (getValueS revealMask.1 revealTyped).1 = "12" ∧
    rawValue revealMask.1 revealTyped = "12" := by
  refine ⟨?_, by decide, by decide⟩
  have hget : cand.get? vi = none := by
    rw [List.get?_eq_none]
    exact hvi
  simp only [fvAux, if_pos hi, hed, if_true, hrev, hget, hval, decide_eq_true_eq]
  simp [hvi]

/-- Witness for C7: the truncation applied to the concrete revealing pattern
`"111-111"` at slot 2 with both typed characters consumed. -/
theorem C7_revealing_truncates_witness :
    fvAux revealMask.1.pat ["1", "2"] 5 2 2
        [some "1", some "2", none, none, none, none, none] =
      [some "1", some "2", none, none, none, none, none] :=
  (C7_revealing_truncates revealMask.1.pat ["1", "2"] 4 2 2
    [some "1", some "2", none, none, none, none, none]
    (by decide) (by decide) (by decide) (by decide) (by decide)).1

/-- C8 (counterexample): on a revealing mask, `input` can return `false` and
still change the value buffer: on revealing `"1-1"` holding `"1"`, the invalid
`input("x")` is rejected, yet the internal `getValue()` call has rewritten the
buffer (the literal dash slot was a hole before and is filled afterwards). -/
theorem C8_input_revealing_counterexample :
    (inputOp reveal11Mask.1 "x" reveal11Typed).1 = false ∧
    (inputOp reveal11Mask.1 "x" reveal11Typed).2.value ≠ reveal11Typed.value := by decide

/-- `getValue` is pure on a non-revealing mask. -/
theorem getValueS_nonreveal (ctx : Ctx) (s : MaskState)
    (hrev : ctx.pat.isRevealingMask = false) :
    getValueS ctx s = (joinValue s.value, s) := by
  simp [getValueS, hrev]

/-- Code form of the effective insertion index as a `max`. -/
theorem effIndex_eq_max (ctx : Ctx) (a : Int) :
    effIndex ctx a = max a (ctx.pat.firstEditableIndex : Int) := by
  unfold effIndex
  rcases lt_or_ge a (ctx.pat.firstEditableIndex : Int) with h | h
  · rw [if_pos h, max_eq_right h.le]
  · rw [if_neg (not_lt.mpr h), max_eq_left h]

/-- `input` at a collapsed end-of-pattern cursor is a rejected no-op. -/
theorem inputOp_atEnd (ctx : Ctx) (c : String) (s : MaskState)
    (h1 : s.selection.start = s.selection.stop ∧
      s.selection.start = (ctx.pat.pattern.length : Int)) :
    inputOp ctx c s = (false, s) := by
  simp only [inputOp, if_pos h1]

/-- `input` of an invalid character for an editable effective index is a
rejected no-op (non-revealing mask). -/
theorem inputOp_invalid (ctx : Ctx) (c : String) (s : MaskState)
    (hrev : ctx.pat.isRevealingMask = false)
    (h1 : ¬(s.selection.start = s.selection.stop ∧
      s.selection.start = (ctx.pat.pattern.length : Int)))
    (hed : isEditableI ctx.pat (max s.selection.start (ctx.pat.firstEditableIndex : Int)) = true)
    (hval : validAtN ctx.pat (some c)
      (max s.selection.start (ctx.pat.firstEditableIndex : Int)).toNat = false) :
    inputOp ctx c s = (false, s) := by
  simp only [inputOp, getValueS_nonreveal ctx s hrev, if_neg h1,
    effIndex_eq_max ctx s.selection.start, hed, if_true, hval, Bool.not_false]

/-- `input` succeeds whenever the cursor is not collapsed at the end and the
effective index is either a literal slot or accepts the character. -/
theorem inputOp_accepts (ctx : Ctx) (c : String) (s : MaskState)
    (hrev : ctx.pat.isRevealingMask = false)
    (h1 : ¬(s.selection.start = s.selection.stop ∧
      s.selection.start = (ctx.pat.pattern.length : Int)))
    (h2 : isEditableI ctx.pat (max s.selection.start (ctx.pat.firstEditableIndex : Int)) = false ∨
      validAtN ctx.pat (some c)
        (max s.selection.start (ctx.pat.firstEditableIndex : Int)).toNat = true) :
    (inputOp ctx c s).1 = true := by
  simp only [inputOp, getValueS_nonreveal ctx s hrev, if_neg h1,
    effIndex_eq_max ctx s.selection.start]
  rcases h2 with h2 | h2
  · simp [h2]
  · simp only [h2, Bool.not_true, Bool.false_eq_true, if_false]
    split <;> rfl

/-- C8 (amended, non-revealing): `input(char)` returns `false` exactly when
the selection is collapsed at the end of the pattern, or the effective
insertion index (the max of `selection.start` and `firstEditableIndex`) is an
editable slot whose validator rejects `char`; and a `false` return leaves the
whole engine state unchanged. -/
theorem C8_input_false_characterisation (ctx : Ctx) (c : String) (s : MaskState)
    (hrev : ctx.pat.isRevealingMask = false) :
    ((inputOp ctx c s).1 = false ↔
      ((s.selection.start = s.selection.stop ∧
          s.selection.start = (ctx.pat.pattern.length : Int)) ∨
       (isEditableI ctx.pat (max s.selection.start (ctx.pat.firstEditableIndex : Int)) = true ∧
        validAtN ctx.pat (some c)
          (max s.selection.start (ctx.pat.firstEditableIndex : Int)).toNat = false))) ∧
    ((inputOp ctx c s).1 = false → (inputOp ctx c s).2 = s) := by
  by_cases h1 : s.selection.start = s.selection.stop ∧
      s.selection.start = (ctx.pat.pattern.length : Int)
  · rw [inputOp_atEnd ctx c s h1]
    exact ⟨⟨fun _ => Or.inl h1, fun _ => rfl⟩, fun _ => rfl⟩
  · by_cases hed : isEditableI ctx.pat
        (max s.selection.start (ctx.pat.firstEditableIndex : Int)) = true
    · by_cases hval : validAtN ctx.pat (some c)
          (max s.selection.start (ctx.pat.firstEditableIndex : Int)).toNat = true
      · have ht := inputOp_accepts ctx c s hrev h1 (Or.inr hval)
        rw [ht]
        refine ⟨⟨fun hf => absurd hf (by simp), ?_⟩, fun hf => absurd hf (by simp)⟩
        rintro (hc | hc)
        · exact absurd hc h1
        · exact absurd (hval.symm.trans hc.2) (by simp)
      · have hval' := Bool.eq_false_iff.mpr hval
        rw [inputOp_invalid ctx c s hrev h1 hed hval']
        exact ⟨⟨fun _ => Or.inr ⟨hed, hval'⟩, fun _ => rfl⟩, fun _ => rfl⟩
    · have hed' := Bool.eq_false_iff.mpr hed
      have ht := inputOp_accepts ctx c s hrev h1 (Or.inl hed')
      rw [ht]
      refine ⟨⟨fun hf => absurd hf (by simp), ?_⟩, fun hf => absurd hf (by simp)⟩
      rintro (hc | hc)
      · exact absurd hc h1
      · exact absurd (hc.1.symm.trans hed') (by simp)

/-- Witness for C8 (the spec's own scenario): mask `"aa"`, `input('1')` is
rejected and the state is exactly the fresh one. -/
theorem C8_input_false_characterisation_witness :
    (inputOp aaMask.1 "1" aaMask.2).1 = false ∧
      (inputOp aaMask.1 "1" aaMask.2).2 = aaMask.2 := by
  have h := C8_input_false_characterisation aaMask.1 "1" aaMask.2 (by decide)
  have hf : (inputOp aaMask.1 "1" aaMask.2).1 = false :=
    h.1.mpr (Or.inr ⟨by decide, by decide⟩)
  exact ⟨hf, h.2 hf⟩

/-- The Bool break test inside `ssWalk` decides `ssBreak`. -/
theorem ssWalk_break_iff (ctx : Ctx) (v : List JSVal) (q : Int) :
    ((isEditableI ctx.pat (q - 1) &&
        decide (jsGet v (q - 1) ≠ some ctx.placeholderChar)) ||
      decide (q = (ctx.pat.firstEditableIndex : Int))) = true ↔ ssBreak ctx v q := by
  simp [ssBreak, Bool.or_eq_true, Bool.and_eq_true, decide_eq_true_eq]

/-- With enough fuel, the `setSelection` walk starting at or after the first
editable index lands on the greatest position `pos ≤ index` satisfying the
break condition (which always exists: `firstEditableIndex` itself breaks). -/
theorem ssWalk_spec (ctx : Ctx) (v : List JSVal) :
    ∀ (fuel : Nat) (index : Int), (ctx.pat.firstEditableIndex : Int) ≤ index →
      (index - (ctx.pat.firstEditableIndex : Int)).toNat < fuel →
      ∃ pos, ssWalk ctx v fuel index = some pos ∧
        (ctx.pat.firstEditableIndex : Int) ≤ pos ∧ pos ≤ index ∧ ssBreak ctx v pos ∧
        ∀ q, pos < q → q ≤ index → ¬ssBreak ctx v q := by
  intro fuel
  induction fuel with
  | zero => intro index _ hf; omega
  | succ fuel ih =>
    intro index hge hf
    by_cases hb :
        ((isEditableI ctx.pat (index - 1) &&
            decide (jsGet v (index - 1) ≠ some ctx.placeholderChar)) ||
          decide (index = (ctx.pat.firstEditableIndex : Int))) = true
    · refine ⟨index, ?_, hge, le_refl index, (ssWalk_break_iff ctx v index).mp hb, ?_⟩
      · simp only [ssWalk, if_pos hge, if_pos hb]
      · intro q hq1 hq2; omega
    · have hnb : ¬ssBreak ctx v index := fun hp =>
        hb ((ssWalk_break_iff ctx v index).mpr hp)
      have hne : index ≠ (ctx.pat.firstEditableIndex : Int) := fun he =>
        hnb (Or.inr he)
      have hge' : (ctx.pat.firstEditableIndex : Int) ≤ index - 1 := by omega
      have hf' : (index - 1 - (ctx.pat.firstEditableIndex : Int)).toNat < fuel := by omega
      rcases ih (index - 1) hge' hf' with ⟨pos, hw, hp1, hp2, hp3, hp4⟩
      refine ⟨pos, ?_, hp1, by omega, hp3, ?_⟩
      · simp only [ssWalk, if_pos hge, if_neg hb]
        exact hw
      · intro q hq1 hq2
        rcases eq_or_lt_of_le hq2 with he | hl
        · rw [he]; exact hnb
        · exact hp4 q hq1 (by omega)

/-- C9: `setSelection` with a collapsed range always returns `true` and leaves
a collapsed cursor at or after `firstEditableIndex`: a position below it is
clamped up to it, and otherwise the cursor moves left from the requested
position exactly to the greatest position that sits right after a filled
editable slot or equals `firstEditableIndex`.  A non-collapsed range returns
`false` but is stored verbatim as the selection. -/
theorem C9_setSelection_behaviour (ctx : Ctx) (sel : Sel) (s : MaskState) :
    (sel.start = sel.stop →
      (setSelectionOp ctx sel s).1 = true ∧
      (setSelectionOp ctx sel s).2.selection.start =
        (setSelectionOp ctx sel s).2.selection.stop ∧
      (ctx.pat.firstEditableIndex : Int) ≤ (setSelectionOp ctx sel s).2.selection.start ∧
      (sel.start < (ctx.pat.firstEditableIndex : Int) →
        (setSelectionOp ctx sel s).2.selection.start = (ctx.pat.firstEditableIndex : Int)) ∧
      ((ctx.pat.firstEditableIndex : Int) ≤ sel.start →
        (setSelectionOp ctx sel s).2.selection.start ≤ sel.start ∧
        ssBreak ctx s.value (setSelectionOp ctx sel s).2.selection.start ∧
        ∀ q, (setSelectionOp ctx sel s).2.selection.start < q → q ≤ sel.start →
          ¬ssBreak ctx s.value q)) ∧
    (sel.start ≠ sel.stop →
      (setSelectionOp ctx sel s).1 = false ∧ (setSelectionOp ctx sel s).2.selection = sel) := by
  constructor
  · intro hcol
    by_cases hlt : sel.start < (ctx.pat.firstEditableIndex : Int)
    · simp only [setSelectionOp, if_pos hcol, if_pos hlt]
      refine ⟨by trivial, by trivial, le_refl _, fun _ => by trivial, fun hge => ?_⟩
      omega
    · have hge : (ctx.pat.firstEditableIndex : Int) ≤ sel.start := by omega
      have hfuel : (sel.start - (ctx.pat.firstEditableIndex : Int)).toNat <
          (sel.start - (ctx.pat.firstEditableIndex : Int)).toNat + 1 := by omega
      rcases ssWalk_spec ctx s.value ((sel.start - (ctx.pat.firstEditableIndex : Int)).toNat + 1)
        sel.start hge hfuel with ⟨pos, hw, hp1, hp2, hp3, hp4⟩
      simp only [setSelectionOp, if_pos hcol, if_neg hlt, hw]
      exact ⟨by trivial, by trivial, hp1, fun hc => absurd hc hlt, fun _ => ⟨hp2, hp3, hp4⟩⟩
  · intro hne
    simp only [setSelectionOp, if_neg (fun he => hne he)]
    exact ⟨by trivial, by trivial⟩

/-- Witness for C9: on the phone mask holding `"(5__) ___-____"`, a collapsed
`setSelection({9,9})` succeeds and the cursor walks left to position 2 (right
after the filled digit), which satisfies the break condition; and
`setSelection({3,7})` returns `false` with the range stored verbatim. -/
theorem C9_setSelection_behaviour_witness :
    (setSelectionOp phoneMask.1 ⟨9, 9⟩ phoneTyped).1 = true ∧
    (phoneMask.1.pat.firstEditableIndex : Int) ≤
      (setSelectionOp phoneMask.1 ⟨9, 9⟩ phoneTyped).2.selection.start ∧
    ssBreak phoneMask.1 phoneTyped.value
      (setSelectionOp phoneMask.1 ⟨9, 9⟩ phoneTyped).2.selection.start ∧
    (setSelectionOp phoneMask.1 ⟨3, 7⟩ phoneTyped).1 = false ∧
    (setSelectionOp phoneMask.1 ⟨3, 7⟩ phoneTyped).2.selection = ⟨3, 7⟩ := by
  have h9 := C9_setSelection_behaviour phoneMask.1 ⟨9, 9⟩ phoneTyped
  have h37 := C9_setSelection_behaviour phoneMask.1 ⟨3, 7⟩ phoneTyped
  have hc := h9.1 rfl
  have hr := h37.2 (by decide)
  exact ⟨hc.1, hc.2.2.1, (hc.2.2.2.2 (by decide)).2.1, hr.1, hr.2⟩

/-- Every member of `rawTailAux` is the content of some editable slot in the
scanned window. -/
theorem rawTailAux_mem (p : PatternT) (v : List JSVal) :
    ∀ (fuel i : Nat) (x : String), x ∈ rawTailAux p v fuel i →
      ∃ j, i ≤ j ∧ j < i + fuel ∧ p.editable.getD j false = true ∧
        x = (v.getD j none).getD "" := by
  intro fuel
  induction fuel with
  | zero => intro i x hx; simp [rawTailAux] at hx
  | succ fuel ih =>
    intro i x hx
    simp only [rawTailAux] at hx
    by_cases he : p.editable.getD i false = true
    · rw [if_pos he] at hx
      rcases List.mem_cons.mp hx with h | h
      · exact ⟨i, le_refl i, by omega, he, h⟩
      · rcases ih (i + 1) x h with ⟨j, hj1, hj2, hj3, hj4⟩
        exact ⟨j, by omega, by omega, hj3, hj4⟩
    · rw [if_neg he] at hx
      rcases ih (i + 1) x hx with ⟨j, hj1, hj2, hj3, hj4⟩
      exact ⟨j, by omega, by omega, hj3, hj4⟩

/-- `split('')` distributes over string append. -/
theorem splitCand_append (a b : String) : splitCand (a ++ b) = splitCand a ++ splitCand b := by
  simp [splitCand, String.data_append]

/-- `split('')` of a single character. -/
theorem splitCand_char (c : Char) : splitCand c.toString = [c.toString] := rfl

/-- Splitting the `getRawValue` fold over a window yields the editable entry
contents of that window, provided those entries are single characters. -/
theorem rawFold_split (ctx : Ctx) (v : List JSVal)
    (singles : ∀ i, i < v.length → ctx.pat.editable.getD i false = true →
      ∃ c : Char, v.getD i none = some c.toString) :
    ∀ (fuel start : Nat) (acc : String), start + fuel ≤ v.length →
      splitCand ((List.range' start fuel).foldl
        (fun acc i =>
          if ctx.pat.editable.getD i false then acc ++ (v.getD i none).getD "" else acc)
        acc) =
      splitCand acc ++ rawTailAux ctx.pat v fuel start := by
  intro fuel
  induction fuel with
  | zero => intro start acc _; simp [rawTailAux]
  | succ fuel ih =>
    intro start acc hbound
    rw [List.range'_succ start fuel 1]
    simp only [List.foldl_cons]
    by_cases he : ctx.pat.editable.getD start false = true
    · rw [if_pos he]
      rcases singles start (by omega) he with ⟨c, hc⟩
      rw [ih (start + 1) (acc ++ (v.getD start none).getD "") (by omega)]
      simp only [rawTailAux, if_pos he]
      rw [hc]
      simp only [Option.getD_some]
      rw [splitCand_append, splitCand_char]
      simp
    · rw [if_neg he]
      rw [ih (start + 1) acc (by omega)]
      simp only [rawTailAux, if_neg he]

/-- `getRawValue().split('')` is exactly the editable entry contents of the
whole buffer. -/
theorem splitCand_rawValue (ctx : Ctx) (s : MaskState)
    (singles : ∀ i, i < s.value.length → ctx.pat.editable.getD i false = true →
      ∃ c : Char, s.value.getD i none = some c.toString) :
    splitCand (rawValue ctx s) = rawTailAux ctx.pat s.value s.value.length 0 := by
  unfold rawValue
  rw [List.range_eq_range']
  rw [rawFold_split ctx s.value singles s.value.length 0 "" (by omega)]
  rfl

/-- The restoration walk: `formatValue` applied to the raw editable contents
rebuilds the buffer slot by slot under `RoundTripWF`. -/
theorem fvAux_restore (ctx : Ctx) (v : List JSVal) (hwf : RoundTripWF ctx v)
    (cand : List String) :
    ∀ (fuel i vi : Nat) (buf : List JSVal),
      i + fuel = ctx.pat.pattern.length →
      buf.length = ctx.pat.pattern.length →
      (∀ j, j < i → buf.getD j none = v.getD j none) →
      cand.drop vi = rawTailAux ctx.pat v fuel i →
      fvAux ctx.pat cand fuel i vi buf = v := by
  intro fuel
  induction fuel with
  | zero =>
    intro i vi buf hif hlen hpre _
    simp only [fvAux]
    refine List.ext_getElem (by rw [hlen, hwf.lenV]) ?_
    intro j h1 h2
    have hj : j < i := by rw [hlen] at h1; omega
    have hgd := hpre j hj
    rw [List.getD_eq_getElem?_getD, List.getD_eq_getElem?_getD,
      List.getElem?_eq_getElem h1, List.getElem?_eq_getElem h2] at hgd
    simpa using hgd
  | succ fuel ih =>
    intro i vi buf hif hlen hpre hdrop
    have hi : i < ctx.pat.pattern.length := by omega
    simp only [fvAux, if_pos hi]
    by_cases he : ctx.pat.editable.getD i false = true
    · rw [if_pos he]
      have htail : rawTailAux ctx.pat v (fuel + 1) i =
          ((v.getD i none).getD "") :: rawTailAux ctx.pat v fuel (i + 1) := by
        simp only [rawTailAux]
        rw [if_pos he]
      rw [htail] at hdrop
      have hget : cand.get? vi = some ((v.getD i none).getD "") := by
        rw [List.get?_eq_getElem?]
        have h0 : (cand.drop vi)[0]? = some ((v.getD i none).getD "") := by
          rw [hdrop, List.getElem?_cons_zero]
        rw [List.getElem?_drop] at h0
        simpa using h0
      have hvi : vi < cand.length := by
        have hl := congrArg List.length hdrop
        rw [List.length_drop] at hl
        simp only [List.length_cons] at hl
        omega
      have hdrop2 : cand.drop (vi + 1) = rawTailAux ctx.pat v fuel (i + 1) := by
        have hdd : cand.drop (vi + 1) = (cand.drop vi).drop 1 := by
          rw [List.drop_drop]
        rw [hdd, hdrop]
        rfl
      have hgetD : cand.getD vi "" = (v.getD i none).getD "" := by
        rw [List.getD_eq_getElem?_getD, ← List.get?_eq_getElem?, hget]
        rfl
      rcases hwf.ed i hi he with ⟨c, hc, hcase⟩
      have hcontent : (v.getD i none).getD "" = c.toString := by rw [hc]; rfl
      rw [hwf.nonReveal]
      simp only [Bool.false_and, Bool.false_eq_true, if_false]
      rcases hcase with hph | ⟨hvalid, hstable⟩
      · have hcond : (decide (vi < cand.length) && validAtN ctx.pat (cand.get? vi) i) = false := by
          rw [hget, hcontent, hph, hwf.phInvalid i hi he]
          simp
        rw [hcond]
        simp only [Bool.false_eq_true, if_false]
        apply ih (i + 1) (vi + 1) (buf.set i (some ctx.pat.placeholderChar)) (by omega)
          (by rw [List.length_set]; exact hlen) ?_ hdrop2
        intro j hj
        rcases Nat.lt_or_ge j i with hji | hji
        · rw [getD_set_ne _ _ _ _ _ (by omega)]
          exact hpre j hji
        · have hj2 : j = i := by omega
          subst hj2
          rw [getD_set_self _ _ _ _ (by omega : j < buf.length)]
          rw [hc, hph]
      · have hcond : (decide (vi < cand.length) && validAtN ctx.pat (cand.get? vi) i) = true := by
          rw [hget, hcontent, hvalid]
          simp [hvi]
        rw [hcond]
        simp only [if_true]
        rw [hgetD, hcontent, hstable]
        apply ih (i + 1) (vi + 1) (buf.set i (some c.toString)) (by omega)
          (by rw [List.length_set]; exact hlen) ?_ hdrop2
        intro j hj
        rcases Nat.lt_or_ge j i with hji | hji
        · rw [getD_set_ne _ _ _ _ _ (by omega)]
          exact hpre j hji
        · have hj2 : j = i := by omega
          subst hj2
          rw [getD_set_self _ _ _ _ (by omega : j < buf.length)]
          rw [hc]
    · rw [if_neg he]
      have hef : ctx.pat.editable.getD i false = false := Bool.eq_false_iff.mpr he
      have hlit := hwf.lit i hi hef
      have htail : rawTailAux ctx.pat v (fuel + 1) i = rawTailAux ctx.pat v fuel (i + 1) := by
        simp only [rawTailAux]
        rw [if_neg he]
      rw [htail] at hdrop
      have hnocons : (decide (vi < cand.length) &&
          decide (cand.getD vi "" = ((ctx.pat.pattern.getD i ' ').toString))) = false := by
        rcases hsplit : cand.drop vi with _ | ⟨x, rest⟩
        · have hle : cand.length ≤ vi := List.drop_eq_nil_iff.mp hsplit
          simp [Nat.not_lt.mpr hle]
        · have hx : x ∈ rawTailAux ctx.pat v fuel (i + 1) := by
            rw [← hdrop, hsplit]
            exact List.mem_cons_self x rest
          rcases rawTailAux_mem ctx.pat v fuel (i + 1) x hx with ⟨j, hj1, hj2, hj3, hj4⟩
          rcases hwf.ed j (by omega) hj3 with ⟨c2, hc2, _⟩
          have hne := hwf.noLitClash j i (by omega) hi hj3 hef
          have hgetD : cand.getD vi "" = x := by
            rw [List.getD_eq_getElem?_getD]
            have h0 : (cand.drop vi)[0]? = some x := by
              rw [hsplit, List.getElem?_cons_zero]
            rw [List.getElem?_drop] at h0
            simp only [Nat.add_zero] at h0
            rw [h0]
            rfl
          have hq : ¬(c2.toString = (ctx.pat.pattern.getD i ' ').toString) := by
            intro hq0
            exact hne (by rw [hc2, hq0])
          simp only [hgetD, hj4, hc2, Option.getD_some]
          rw [decide_eq_false hq, Bool.and_false]
      rw [hnocons]
      simp only [Bool.false_eq_true, if_false]
      apply ih (i + 1) vi (buf.set i (some ((ctx.pat.pattern.getD i ' ').toString))) (by omega)
        (by rw [List.length_set]; exact hlen) ?_ hdrop
      intro j hj
      rcases Nat.lt_or_ge j i with hji | hji
      · rw [getD_set_ne _ _ _ _ _ (by omega)]
        exact hpre j hji
      · have hj2 : j = i := by omega
        subst hj2
        rw [getD_set_self _ _ _ _ (by omega : j < buf.length)]
        rw [hlit]

/-- C5 (amended): on a non-revealing mask whose buffer satisfies
`RoundTripWF` — in particular any buffer over the default format characters
whose editable entries never coincide with a literal pattern character —
`setValue(getRawValue())` reproduces exactly the same buffer. -/
theorem C5_setValue_rawValue_roundtrip (ctx : Ctx) (s : MaskState)
    (hwf : RoundTripWF ctx s.value) :
    (setValueOp ctx (rawValue ctx s) s).value = s.value := by
  have hsingles : ∀ i, i < s.value.length → ctx.pat.editable.getD i false = true →
      ∃ c : Char, s.value.getD i none = some c.toString := by
    intro i hi he
    rcases hwf.ed i (by rw [← hwf.lenV]; exact hi) he with ⟨c, hc, _⟩
    exact ⟨c, hc⟩
  have hsplit := splitCand_rawValue ctx s hsingles
  simp only [setValueOp, formatValue]
  apply fvAux_restore ctx s.value hwf _ ctx.pat.pattern.length 0 0
    (List.replicate ctx.pat.pattern.length none) (by omega) (by simp) (by omega)
  rw [List.drop_zero, hsplit, hwf.lenV]

/-- C5 (counterexample): on the non-revealing mask with source `1\51`
(digit, literal `5`, digit) reachable buffer `['_','5','5']` (constructed with
the cursor on slot 2, then `input('5')`), `setValue(getRawValue())` does not
reproduce the buffer: the raw value `"_5"` re-formats to `['_','5','_']`
because the literal-consumption step of `formatValue` swallows the `'5'`. -/
theorem C5_roundtrip_counterexample :
    (setValueOp litFiveMask.1 (rawValue litFiveMask.1 litFiveTyped) litFiveTyped).value ≠
      litFiveTyped.value := by decide

/-- Witness for C5: the `"1-1"` engine holding `['5','-','_']` round-trips. -/
theorem C5_setValue_rawValue_roundtrip_witness :
    (setValueOp dashMask.1 (rawValue dashMask.1 dashTyped) dashTyped).value =
      dashTyped.value := by
  apply C5_setValue_rawValue_roundtrip dashMask.1 dashTyped
  refine ⟨by decide, by decide, by decide, ?_, by decide, ?_⟩
  · intro i hi he
    match i with
    | 0 => exact ⟨'5', by decide, Or.inr ⟨by decide, by decide⟩⟩
    | 1 => exact absurd he (by decide)
    | 2 => exact ⟨'_', by decide, Or.inl (by decide)⟩
  · intro i j hi hj
    have hn : dashMask.1.pat.pattern.length = 3 := by decide
    rw [hn] at hi hj
    interval_cases i <;> interval_cases j <;> decide

/-- A string of length one is a single character. -/
theorem strlen_one (s : String) (h : s.length = 1) : ∃ c : Char, s = c.toString := by
  rcases s with ⟨data⟩
  match data with
  | [] => simp [String.length] at h
  | [c] => exact ⟨c, rfl⟩
  | c :: d :: rest => simp [String.length] at h

/-- A validated input of a `jsSingleTest`-based entry is one character long. -/
theorem jsSingleTest_length (p : Char → Bool) (str : String)
    (h : jsSingleTest p (some str) = true) : str.length = 1 := by
  rcases str with ⟨data⟩
  match data with
  | [] => simp [jsSingleTest] at h
  | [c] => rfl
  | c :: d :: rest => simp [jsSingleTest] at h

/-- Uppercasing preserves string length. -/
theorem map_toUpper_length (s : String) : (s.map Char.toUpper).length = s.length := by
  rw [String.map_eq, String.length, String.length]
  simp

/-- The default registry's transforms yield single characters on validated input. -/
theorem defaultRegistry_oneChar : RegistryOneChar defaultRegistry := by
  intro k f hk str hv
  simp only [defaultRegistry] at hk
  split_ifs at hk <;> cases hk <;>
    simp only [applyTransformF] at hv ⊢ <;>
    first
      | exact jsSingleTest_length _ _ hv
      | (rw [map_toUpper_length]; exact jsSingleTest_length _ _ hv)

/-- `split('')` distributes over string append (buffer form). -/
theorem splitStr_append (a b : String) : splitStr (a ++ b) = splitStr a ++ splitStr b := by
  simp [splitStr, String.data_append]

/-- `split('')` of a single character (buffer form). -/
theorem splitStr_char (c : Char) : splitStr c.toString = [some c.toString] := rfl

/-- Splitting a cons-shaped buffer of single entries. -/
theorem SingleEntries_cons (e : JSVal) (rest : List JSVal) :
    SingleEntries (e :: rest) ↔ (∃ c : Char, e = some c.toString) ∧ SingleEntries rest := by
  constructor
  · intro h
    refine ⟨by simpa using h 0 (by simp), fun i hi => ?_⟩
    have := h (i + 1) (by simp; omega)
    simpa using this
  · rintro ⟨he, hr⟩ i hi
    match i with
    | 0 => simpa using he
    | i + 1 =>
      have : i < rest.length := by simp at hi; omega
      simpa using hr i this

/-- `join('')` then `split('')` is the identity on buffers of defined
one-character entries. -/
theorem splitStr_joinValue :
    ∀ (v : List JSVal), SingleEntries v → splitStr (joinValue v) = v := by
  have haux : ∀ (v : List JSVal) (acc : String), SingleEntries v →
      splitStr (v.foldl (fun acc e => acc ++ e.getD "") acc) = splitStr acc ++ v := by
    intro v
    induction v with
    | nil => intro acc _; simp
    | cons e rest ih =>
      intro acc hs
      rcases (SingleEntries_cons e rest).mp hs with ⟨⟨c, hc⟩, hrest⟩
      simp only [List.foldl_cons]
      rw [ih (acc ++ e.getD "") hrest, hc]
      simp only [Option.getD_some]
      rw [splitStr_append, splitStr_char]
      simp
  intro v hs
  have := haux v "" hs
  simpa [joinValue] using this

/-- First element of a nonempty list, `getLast?` form vs indexing form. -/
theorem getLast_getD_eq (l : List HistoryItem) (d : HistoryItem) (h : l ≠ []) :
    l.getLast?.getD d = l.getD (l.length - 1) d := by
  rw [List.getLast?_eq_getElem?, List.getD_eq_getElem?_getD]

/-- Scan invariant: every slot the scan flags editable has a registry entry
behind it (an escaped character never gets a `true` flag). -/
theorem parseSlots_backed (registry : Registry) :
    ∀ (src : List Char) (slots : List (Char × Bool)), parseSlots registry src = .ok slots →
      ∀ p ∈ slots, p.2 = true → (registry p.1).isSome = true
  | [], slots => by
    intro h p hp _
    simp only [parseSlots] at h
    cases h
    simp at hp
  | [c], slots => by
    intro h p hp he
    simp only [parseSlots] at h
    by_cases hc : c = ESCAPE_CHAR
    · rw [if_pos hc] at h; cases h
    · rw [if_neg hc] at h
      simp only [parseSlots, Except.map] at h
      cases h
      rcases List.mem_singleton.mp hp with rfl
      exact he
  | c :: c2 :: rest, slots => by
    intro h p hp he
    simp only [parseSlots] at h
    by_cases hc : c = ESCAPE_CHAR
    · rw [if_pos hc] at h
      rcases hr : parseSlots registry rest with e | slots'
      · rw [hr] at h; cases h
      · rw [hr] at h
        simp only [Except.map] at h
        cases h
        rcases List.mem_cons.mp hp with rfl | hp2
        · simp at he
        · exact parseSlots_backed registry rest slots' hr p hp2 he
    · rw [if_neg hc] at h
      rcases hr : parseSlots registry (c2 :: rest) with e | slots'
      · rw [hr] at h; cases h
      · rw [hr] at h
        simp only [Except.map] at h
        cases h
        rcases List.mem_cons.mp hp with rfl | hp2
        · exact he
        · exact parseSlots_backed registry (c2 :: rest) slots' hr p hp2 he

/-- Inversion of a successful `Pattern` construction. -/
theorem mkPattern_inv (src : String) (r : Registry) (ph : String) (rev : Bool) (pat : PatternT)
    (h : mkPattern src r ph rev = .ok pat) :
    ∃ slots fe, parseSlots r src.data = .ok slots ∧
      findFirstTrue (slots.map Prod.snd) = some fe ∧
      pat = { registry := r
              placeholderChar := if ph = "" then DEFAULT_PLACEHOLDER_CHAR else ph
              pattern := slots.map Prod.fst
              editable := slots.map Prod.snd
              firstEditableIndex := fe
              lastEditableIndex := (findLastTrue (slots.map Prod.snd)).getD fe
              isRevealingMask := rev } := by
  rcases hps : parseSlots r src.data with e | slots
  · rw [mkPattern, hps] at h; cases h
  · simp only [mkPattern, hps] at h
    rcases hff : findFirstTrue (slots.map Prod.snd) with _ | fe
    · rw [hff] at h; cases h
    · rw [hff] at h
      cases h
      exact ⟨slots, fe, rfl, hff, rfl⟩

/-- Inversion of a successful `InputMask` construction. -/
theorem mkMask_inv (src : String) (r : Registry) (ph : String) (rev : Bool)
    (v0 : String) (sel0 : Sel) (ctx : Ctx) (s0 : MaskState)
    (h : mkMask src r ph rev v0 sel0 = .ok (ctx, s0)) :
    mkPattern src r ph rev = .ok ctx.pat ∧ ctx.placeholderChar = ph ∧
    s0 = { value := formatValue ctx.pat (splitCand v0), selection := sel0, history := [],
           historyIndex := none, lastOp := none, lastSelection := some sel0 } := by
  by_cases hl : ph.length > 1
  · rw [mkMask, if_pos hl] at h; cases h
  · rw [mkMask, if_neg hl] at h
    rcases hmp : mkPattern src r ph rev with e | pat
    · rw [hmp] at h; cases h
    · rw [hmp] at h
      cases h
      exact ⟨rfl, rfl, rfl⟩

/-- `NiceCtx` holds for every engine built by `mkMask` from a non-revealing
mask, a one-character placeholder and a `RegistryOneChar` registry. -/
theorem mkMask_nice (src : String) (r : Registry) (ph : String)
    (v0 : String) (sel0 : Sel) (ctx : Ctx) (s0 : MaskState)
    (h : mkMask src r ph false v0 sel0 = .ok (ctx, s0))
    (hph : ph.length = 1) (hreg : RegistryOneChar r) : NiceCtx ctx := by
  rcases mkMask_inv src r ph false v0 sel0 ctx s0 h with ⟨hmp, hcph, _⟩
  rcases mkPattern_inv src r ph false ctx.pat hmp with ⟨slots, fe, hps, _, hpat⟩
  have hne : ph ≠ "" := by
    intro he
    rw [he] at hph
    exact absurd hph (by decide)
  refine ⟨?_, ?_, ?_, ?_, ?_, ?_⟩
  · rw [hpat]
  · rw [hcph]; exact hph
  · rw [hpat, hcph]
    simp [hne]
  · rw [hpat]
    exact hreg
  · intro i he
    rw [hpat] at he ⊢
    simp only at he ⊢
    have hlt : i < (slots.map Prod.snd).length := by
      by_contra hge
      rw [List.getD_eq_default _ _ (Nat.le_of_not_lt hge)] at he
      exact absurd he (by simp)
    have hmapS : (slots.map Prod.snd).getD i false = (slots.getD i (' ', false)).2 :=
      List.getD_map slots (' ', false) Prod.snd
    have hmapF : (slots.map Prod.fst).getD i ' ' = (slots.getD i (' ', false)).1 :=
      List.getD_map slots (' ', false) Prod.fst
    rw [hmapS] at he
    rw [hmapF]
    have hmem : slots.getD i (' ', false) ∈ slots :=
      getD_mem slots i (' ', false) (by simpa using hlt)
    exact parseSlots_backed r src.data slots hps _ hmem he
  · rw [hpat]
    simp

/-- An editable flag can only be set within the pattern. -/
theorem editable_lt {ctx : Ctx} (hn : NiceCtx ctx) {i : Nat}
    (he : ctx.pat.editable.getD i false = true) : i < ctx.pat.pattern.length := by
  by_contra hge
  rw [List.getD_eq_default _ _ (by rw [hn.lenEq]; omega)] at he
  exact absurd he (by simp)

/-- A positive validation pins a registry entry behind the slot. -/
theorem validAtN_registry {ctx : Ctx} {str : String} {i : Nat}
    (hv : validAtN ctx.pat (some str) i = true) :
    ∃ f, ctx.pat.registry (ctx.pat.pattern.getD i ' ') = some f ∧
      f.validate (some str) = true := by
  rcases hr : ctx.pat.registry (ctx.pat.pattern.getD i ' ') with _ | f
  · rw [validAtN, hr] at hv; cases hv
  · rw [validAtN, hr] at hv
    exact ⟨f, rfl, hv⟩

/-- A validated transform output is one character long. -/
theorem transform_one {ctx : Ctx} (hn : NiceCtx ctx) {str : String} {i : Nat}
    (hv : validAtN ctx.pat (some str) i = true) :
    (transformAtN ctx.pat str i).length = 1 := by
  rcases validAtN_registry hv with ⟨f, hr, hval⟩
  have := hn.regOne _ f hr str hval
  simp only [transformAtN, hr]
  simpa [applyTransformF] using this

/-- A well-formed editable entry is a defined single character. -/
theorem entry_single {ctx : Ctx} (hn : NiceCtx ctx) {i : Nat} {e : JSVal}
    (hok : entryOK ctx i e) : ∃ c : Char, e = some c.toString := by
  rcases hok with hph | ⟨str, hv, he⟩
  · have hl : ctx.pat.placeholderChar.length = 1 := by rw [hn.phEq]; exact hn.phOne
    rcases strlen_one _ hl with ⟨c, hc⟩
    exact ⟨c, by rw [hph, hc]⟩
  · rcases strlen_one _ (transform_one hn hv) with ⟨c, hc⟩
    exact ⟨c, by rw [he, hc]⟩

/-- Every entry of a well-formed buffer is a defined single character. -/
theorem singles_of_WF {ctx : Ctx} (hn : NiceCtx ctx) {v : List JSVal}
    (hwf : ValueWF ctx v) : SingleEntries v := by
  intro i hi
  have hi2 : i < ctx.pat.pattern.length := by rw [← hwf.1]; exact hi
  rcases hwf.2 i hi2 with ⟨hed, hlit⟩
  by_cases he : ctx.pat.editable.getD i false = true
  · exact entry_single hn (hed he)
  · exact ⟨_, hlit (Bool.eq_false_iff.mpr he)⟩

/-- Writing a well-formed entry at an editable index preserves buffer
well-formedness (the write stays inside the buffer, so `jsSet` is `set`). -/
theorem ValueWF_set {ctx : Ctx} (hn : NiceCtx ctx) {v : List JSVal}
    (hwf : ValueWF ctx v) (i : Int) (hed : isEditableI ctx.pat i = true)
    (x : String) (hx : entryOK ctx i.toNat (some x)) :
    ValueWF ctx (jsSet v i x) := by
  have hpos : ¬(i < 0) := by
    intro hneg
    rw [isEditableI, if_pos hneg] at hed
    exact absurd hed (by simp)
  have hei : ctx.pat.editable.getD i.toNat false = true := by
    rw [isEditableI, if_neg hpos] at hed
    exact hed
  have hlt : i.toNat < ctx.pat.pattern.length := editable_lt hn hei
  have hltv : i.toNat < v.length := by rw [hwf.1]; exact hlt
  rw [jsSet, if_neg hpos, if_pos hltv]
  refine ⟨by rw [List.length_set]; exact hwf.1, ?_⟩
  intro j hj
  rcases eq_or_ne j i.toNat with rfl | hne
  · rw [getD_set_self _ _ _ _ hltv]
    exact ⟨fun _ => hx, fun hf => absurd hei (by rw [hf]; simp)⟩
  · rw [getD_set_ne _ _ _ _ _ (fun he2 => hne he2.symm)]
    exact hwf.2 j hj

/-- The selection-blanking loop of `input` preserves well-formedness: it only
writes the placeholder into editable slots. -/
theorem inputBlank_WF {ctx : Ctx} (hn : NiceCtx ctx) :
    ∀ (fuel : Nat) (e lo : Int) (v : List JSVal), ValueWF ctx v →
      ValueWF ctx (inputBlank ctx fuel e lo v) := by
  intro fuel
  induction fuel with
  | zero => intro e lo v hwf; exact hwf
  | succ fuel ih =>
    intro e lo v hwf
    simp only [inputBlank]
    by_cases hlt : lo < e
    · rw [if_pos hlt]
      apply ih
      by_cases hed : isEditableI ctx.pat e = true
      · rw [if_pos hed]
        exact ValueWF_set hn hwf e hed _ (Or.inl (by rw [hn.phEq]))
      · rw [if_neg hed]
        exact hwf
    · rw [if_neg hlt]
      exact hwf

/-- The range-blanking loop of `backspace` preserves well-formedness. -/
theorem bspBlank_WF {ctx : Ctx} (hn : NiceCtx ctx) :
    ∀ (fuel : Nat) (e lo : Int) (v : List JSVal), ValueWF ctx v →
      ValueWF ctx (bspBlank ctx fuel e lo v) := by
  intro fuel
  induction fuel with
  | zero => intro e lo v hwf; exact hwf
  | succ fuel ih =>
    intro e lo v hwf
    simp only [bspBlank]
    by_cases hle : lo ≤ e
    · rw [if_pos hle]
      apply ih
      by_cases hed : isEditableI ctx.pat e = true
      · rw [if_pos hed]
        exact ValueWF_set hn hwf e hed _ (Or.inl (by rw [hn.phEq]))
      · rw [if_neg hed]
        exact hwf
    · rw [if_neg hle]
      exact hwf

/-- The formatting walk produces a well-formed buffer (non-revealing mask). -/
theorem fvAux_WF {ctx : Ctx} (hn : NiceCtx ctx) (cand : List String) :
    ∀ (fuel i vi : Nat) (buf : List JSVal),
      i + fuel = ctx.pat.pattern.length →
      buf.length = ctx.pat.pattern.length →
      (∀ j, j < i →
        (ctx.pat.editable.getD j false = true → entryOK ctx j (buf.getD j none)) ∧
        (ctx.pat.editable.getD j false = false →
          buf.getD j none = some ((ctx.pat.pattern.getD j ' ').toString))) →
      ValueWF ctx (fvAux ctx.pat cand fuel i vi buf) := by
  intro fuel
  induction fuel with
  | zero =>
    intro i vi buf hif hlen hpre
    simp only [fvAux]
    exact ⟨hlen, fun j hj => hpre j (by omega)⟩
  | succ fuel ih =>
    intro i vi buf hif hlen hpre
    have hi : i < ctx.pat.pattern.length := by omega
    simp only [fvAux, if_pos hi, hn.nonReveal, Bool.false_and, Bool.false_eq_true, if_false]
    have hset : ∀ x : JSVal, (buf.set i x).length = ctx.pat.pattern.length := by
      intro x; rw [List.length_set]; exact hlen
    have hpre2 : ∀ (x : JSVal),
        ((ctx.pat.editable.getD i false = true → entryOK ctx i x) ∧
         (ctx.pat.editable.getD i false = false →
           x = some ((ctx.pat.pattern.getD i ' ').toString))) →
        ∀ j, j < i + 1 →
        (ctx.pat.editable.getD j false = true → entryOK ctx j ((buf.set i x).getD j none)) ∧
        (ctx.pat.editable.getD j false = false →
          (buf.set i x).getD j none = some ((ctx.pat.pattern.getD j ' ').toString)) := by
      intro x hx j hj
      rcases eq_or_ne j i with rfl | hne
      · rw [getD_set_self _ _ _ _ (by rw [hlen]; exact hi)]
        exact hx
      · rw [getD_set_ne _ _ _ _ _ (fun he2 => hne he2.symm)]
        exact hpre j (by omega)
    by_cases he : ctx.pat.editable.getD i false = true
    · rw [if_pos he]
      by_cases hcond : (decide (vi < cand.length) && validAtN ctx.pat (cand.get? vi) i) = true
      · rw [if_pos hcond]
        apply ih (i + 1) (vi + 1) _ (by omega) (hset _)
        apply hpre2
        constructor
        · intro _
          rcases (Bool.and_eq_true _ _).mp hcond with ⟨hvi, hval⟩
          have hvi2 : vi < cand.length := of_decide_eq_true hvi
          have hgets : cand.get? vi = some (cand.getD vi "") := by
            rw [List.get?_eq_getElem?, List.getD_eq_getElem?_getD,
              List.getElem?_eq_getElem hvi2]
            rfl
          rw [hgets] at hval
          exact Or.inr ⟨cand.getD vi "", hval, rfl⟩
        · intro hf
          exact absurd he (by rw [hf]; simp)
      · rw [if_neg hcond]
        apply ih (i + 1) (vi + 1) _ (by omega) (hset _)
        apply hpre2
        constructor
        · intro _
          exact Or.inl rfl
        · intro hf
          exact absurd he (by rw [hf]; simp)
    · rw [if_neg he]
      apply ih (i + 1) _ _ (by omega) (hset _)
      apply hpre2
      constructor
      · intro ht
        exact absurd ht (by rw [Bool.eq_false_iff.mpr he]; simp)
      · intro _
        rfl

/-- `formatValue` always yields a well-formed buffer on a non-revealing mask. -/
theorem formatValue_WF {ctx : Ctx} (hn : NiceCtx ctx) (cand : List String) :
    ValueWF ctx (formatValue ctx.pat cand) := by
  apply fvAux_WF hn cand ctx.pat.pattern.length 0 0 _ (by omega) (by simp)
  intro j hj
  omega

/-- The literal-skipping loop never moves the cursor backwards. -/
theorem skipStatic_ge (ctx : Ctx) : ∀ (fuel : Nat) (i : Int), i ≤ skipStatic ctx fuel i := by
  intro fuel
  induction fuel with
  | zero => intro i; exact le_refl i
  | succ fuel ih =>
    intro i
    simp only [skipStatic]
    split
    · exact le_trans (by omega) (ih (i + 1))
    · exact le_refl i

/-- The effective insertion index never sits before the cursor. -/
theorem effIndex_ge (ctx : Ctx) (a : Int) : a ≤ effIndex ctx a := by
  unfold effIndex
  split <;> omega

/-- Explicit form of a successful `input` on a non-revealing mask: `v1` is the
buffer after the optional store into the effective index. -/
theorem inputOp_success_eq (ctx : Ctx) (c : String) (s : MaskState)
    (hrev : ctx.pat.isRevealingMask = false)
    (h1 : ¬(s.selection.start = s.selection.stop ∧
      s.selection.start = (ctx.pat.pattern.length : Int)))
    (v1 : List JSVal)
    (hv1 : (isEditableI ctx.pat (effIndex ctx s.selection.start) = true ∧
        validAtN ctx.pat (some c) (effIndex ctx s.selection.start).toNat = true ∧
        v1 = jsSet s.value (effIndex ctx s.selection.start)
          (transformAtN ctx.pat c (effIndex ctx s.selection.start).toNat)) ∨
      (isEditableI ctx.pat (effIndex ctx s.selection.start) = false ∧ v1 = s.value)) :
    inputOp ctx c s =
      (true,
        { value := inputBlank ctx
            (s.selection.stop - 1 - effIndex ctx s.selection.start).toNat
            (s.selection.stop - 1) (effIndex ctx s.selection.start) v1
          selection := ⟨skipStatic ctx ctx.pat.pattern.length
              (effIndex ctx s.selection.start + 1),
            skipStatic ctx ctx.pat.pattern.length (effIndex ctx s.selection.start + 1)⟩
          history := histAfter "input" (joinValue s.value) s.selection s
          historyIndex := none
          lastOp := some "input"
          lastSelection := some ⟨skipStatic ctx ctx.pat.pattern.length
              (effIndex ctx s.selection.start + 1),
            skipStatic ctx ctx.pat.pattern.length
              (effIndex ctx s.selection.start + 1)⟩ }) := by
  simp only [inputOp, getValueS_nonreveal ctx s hrev, if_neg h1]
  rcases hv1 with ⟨hed, hval, hv⟩ | ⟨hed, hv⟩
  · rw [if_pos hed, hval]
    simp only [Bool.not_true, Bool.false_eq_true, if_false]
    rw [← hv]
  · rw [hed]
    simp only [Bool.false_eq_true, if_false]
    rw [← hv]

/-- Explicit form of an effective `backspace` on a non-revealing mask. -/
theorem backspaceOp_eq (ctx : Ctx) (s : MaskState)
    (hrev : ctx.pat.isRevealingMask = false)
    (h0 : ¬(s.selection.start = 0 ∧ s.selection.stop = 0)) :
    backspaceOp ctx s =
      (true,
        { value :=
            if s.selection.start = s.selection.stop then
              (if isEditableI ctx.pat (s.selection.start - 1) then
                jsSet s.value (s.selection.start - 1) ctx.placeholderChar
              else s.value)
            else bspBlank ctx (s.selection.stop - s.selection.start).toNat
              (s.selection.stop - 1) s.selection.start s.value
          selection :=
            if s.selection.start = s.selection.stop then
              ⟨s.selection.start - 1, s.selection.stop - 1⟩
            else ⟨s.selection.start, s.selection.start⟩
          history := histAfter "backspace" (joinValue s.value) s.selection s
          historyIndex := s.historyIndex
          lastOp := some "backspace"
          lastSelection := some
            (if s.selection.start = s.selection.stop then
              ⟨s.selection.start - 1, s.selection.stop - 1⟩
            else ⟨s.selection.start, s.selection.start⟩) }) := by
  simp only [backspaceOp, getValueS_nonreveal ctx s hrev, if_neg h0]
  by_cases hc : s.selection.start = s.selection.stop
  · simp only [if_pos hc, hrev, Bool.false_eq_true, if_false]
  · simp only [if_neg hc]

/-- Every entry of a post-edit history is the join of a well-formed buffer,
provided that held before and the snapshot being recorded is the live buffer. -/
theorem histAfter_WF {ctx : Ctx} {s : MaskState} (hwf : EngineWF ctx s)
    (op : String) (selB : Sel) :
    ∀ h ∈ histAfter op (joinValue s.value) selB s,
      ∃ w, (ValueWF ctx w ∧ SingleEntries w) ∧ h.value = joinValue w := by
  intro h hm
  simp only [histAfter] at hm
  have hmem1 : ∀ h2 ∈ (if s.historyIndex.isSome = true then
      s.history.take (s.historyIndex.getD 0) else s.history),
      ∃ w, (ValueWF ctx w ∧ SingleEntries w) ∧ h2.value = joinValue w := by
    intro h2 hm2
    split at hm2
    · exact hwf.2 h2 (List.mem_of_mem_take hm2)
    · exact hwf.2 h2 hm2
  split at hm
  · rcases List.mem_append.mp hm with hm2 | hm2
    · exact hmem1 h hm2
    · rcases List.mem_singleton.mp hm2 with rfl
      exact ⟨s.value, hwf.1, rfl⟩
  · exact hmem1 h hm

/-- `EngineWF` only mentions the buffer and the history. -/
theorem EngineWF_transport {ctx : Ctx} {s s2 : MaskState} (hwf : EngineWF ctx s)
    (hv : s2.value = s.value) (hh : s2.history = s.history) : EngineWF ctx s2 := by
  refine ⟨by rw [hv]; exact hwf.1, ?_⟩
  intro h hm
  rw [hh] at hm
  exact hwf.2 h hm

/-- `input` preserves the engine invariant (non-revealing mask). -/
theorem inputOp_WF {ctx : Ctx} (hn : NiceCtx ctx) (c : String) (s : MaskState)
    (hwf : EngineWF ctx s) : EngineWF ctx (inputOp ctx c s).2 := by
  by_cases h1 : s.selection.start = s.selection.stop ∧
      s.selection.start = (ctx.pat.pattern.length : Int)
  · rw [inputOp_atEnd ctx c s h1]
    exact hwf
  · by_cases hed : isEditableI ctx.pat (effIndex ctx s.selection.start) = true
    · by_cases hval : validAtN ctx.pat (some c) (effIndex ctx s.selection.start).toNat = true
      · rw [inputOp_success_eq ctx c s hn.nonReveal h1 _ (Or.inl ⟨hed, hval, rfl⟩)]
        refine ⟨⟨?_, ?_⟩, histAfter_WF hwf "input" s.selection⟩
        · exact inputBlank_WF hn _ _ _ _
            (ValueWF_set hn hwf.1.1 _ hed _ (Or.inr ⟨c, hval, rfl⟩))
        · exact singles_of_WF hn (inputBlank_WF hn _ _ _ _
            (ValueWF_set hn hwf.1.1 _ hed _ (Or.inr ⟨c, hval, rfl⟩)))
      · have h2 := inputOp_invalid ctx c s hn.nonReveal h1
          (by rw [← effIndex_eq_max]; exact hed)
          (by rw [← effIndex_eq_max]; exact Bool.eq_false_iff.mpr hval)
        rw [h2]
        exact hwf
    · have hed2 : isEditableI ctx.pat (effIndex ctx s.selection.start) = false :=
        Bool.eq_false_iff.mpr hed
      rw [inputOp_success_eq ctx c s hn.nonReveal h1 _ (Or.inr ⟨hed2, rfl⟩)]
      refine ⟨⟨?_, ?_⟩, histAfter_WF hwf "input" s.selection⟩
      · exact inputBlank_WF hn _ _ _ _ hwf.1.1
      · exact singles_of_WF hn (inputBlank_WF hn _ _ _ _ hwf.1.1)

/-- `backspace` preserves the engine invariant (non-revealing mask). -/
theorem backspaceOp_WF {ctx : Ctx} (hn : NiceCtx ctx) (s : MaskState)
    (hwf : EngineWF ctx s) : EngineWF ctx (backspaceOp ctx s).2 := by
  by_cases h0 : s.selection.start = 0 ∧ s.selection.stop = 0
  · have : backspaceOp ctx s = (false, s) := by
      rw [backspaceOp, if_pos h0]
    rw [this]
    exact hwf
  · rw [backspaceOp_eq ctx s hn.nonReveal h0]
    have hv : ValueWF ctx (if s.selection.start = s.selection.stop then
        (if isEditableI ctx.pat (s.selection.start - 1) then
          jsSet s.value (s.selection.start - 1) ctx.placeholderChar
        else s.value)
      else bspBlank ctx (s.selection.stop - s.selection.start).toNat
        (s.selection.stop - 1) s.selection.start s.value) := by
      split
      · split
        · exact ValueWF_set hn hwf.1.1 _ (by assumption) _ (Or.inl (by rw [hn.phEq]))
        · exact hwf.1.1
      · exact bspBlank_WF hn _ _ _ _ hwf.1.1
    exact ⟨⟨hv, singles_of_WF hn hv⟩, histAfter_WF hwf "backspace" s.selection⟩

/-- The paste loop preserves the engine invariant. -/
theorem pasteLoop_WF {ctx : Ctx} (hn : NiceCtx ctx) (init : MaskState)
    (hinit : EngineWF ctx init) :
    ∀ (chars : List Char) (s : MaskState), EngineWF ctx s →
      EngineWF ctx (pasteLoop ctx init chars s).2 := by
  intro chars
  induction chars with
  | nil => intro s hwf; exact hwf
  | cons c rest ih =>
    intro s hwf
    simp only [pasteLoop]
    split
    · split
      · exact ih _ (inputOp_WF hn c.toString s hwf)
      · split
        · exact ih _ (inputOp_WF hn c.toString s hwf)
        · exact hinit
    · exact hwf

/-- `paste` preserves the engine invariant. -/
theorem pasteOp_WF {ctx : Ctx} (hn : NiceCtx ctx) (t : String) (s : MaskState)
    (hwf : EngineWF ctx s) : EngineWF ctx (pasteOp ctx t s).2 := by
  simp only [pasteOp]
  have hsnap : EngineWF ctx
      { value := s.value, selection := s.selection, lastOp := s.lastOp,
        history := s.history, historyIndex := s.historyIndex,
        lastSelection := s.lastSelection } := hwf
  split
  · split
    · exact pasteLoop_WF hn _ hsnap _ _ (EngineWF_transport hwf rfl rfl)
    · exact hwf
  · exact pasteLoop_WF hn _ hsnap _ _ hwf

/-- `undo` preserves the engine invariant (non-revealing mask). -/
theorem undoOp_WF {ctx : Ctx} (hn : NiceCtx ctx) (s : MaskState)
    (hwf : EngineWF ctx s) : EngineWF ctx (undoOp ctx s).2 := by
  simp only [undoOp]
  by_cases hg : s.history.length = 0 ∨ s.historyIndex = some 0
  · rw [if_pos hg]
    exact hwf
  · rw [if_neg hg]
    have hne : s.history ≠ [] := by
      intro he
      exact hg (Or.inl (by rw [he]; rfl))
    rcases hidx : s.historyIndex with _ | k
    · simp only [getValueS_nonreveal ctx s hn.nonReveal]
      have hitem : s.history.getD (s.history.length - 1) ⟨"", ⟨0, 0⟩, none, false⟩ ∈
          s.history :=
        getD_mem _ _ _ (by
          have : s.history.length ≠ 0 := fun h0 => hne (List.length_eq_zero.mp h0)
          omega)
      rcases hwf.2 _ hitem with ⟨w, hw, hjoin⟩
      constructor
      · constructor
        · rw [hjoin, splitStr_joinValue w hw.2]
          exact hw.1
        · rw [hjoin, splitStr_joinValue w hw.2]
          exact hw.2
      · intro h hm
        split at hm
        · rcases List.mem_append.mp hm with hm2 | hm2
          · exact hwf.2 h hm2
          · rcases List.mem_singleton.mp hm2 with rfl
            exact ⟨s.value, hwf.1, rfl⟩
        · exact hwf.2 h hm
    · dsimp only
      rcases hget : s.history.get? (k - 1) with _ | item
      · exact hwf
      · dsimp only
        rcases hwf.2 item (List.get?_mem hget) with ⟨w, hw, hjoin⟩
        constructor
        · constructor
          · rw [hjoin, splitStr_joinValue w hw.2]
            exact hw.1
          · rw [hjoin, splitStr_joinValue w hw.2]
            exact hw.2
        · exact hwf.2

/-- `redo` preserves the engine invariant. -/
theorem redoOp_WF {ctx : Ctx} (_hn : NiceCtx ctx) (s : MaskState)
    (hwf : EngineWF ctx s) : EngineWF ctx (redoOp ctx s).2 := by
  simp only [redoOp]
  split
  · exact hwf
  · rcases hget : s.history.get? (s.historyIndex.getD 0 + 1) with _ | item
    · exact hwf
    · dsimp only
      rcases hwf.2 item (List.get?_mem hget) with ⟨w, hw, hjoin⟩
      have hrest : ValueWF ctx (splitStr item.value) ∧ SingleEntries (splitStr item.value) := by
        rw [hjoin, splitStr_joinValue w hw.2]
        exact hw
      split
      · refine ⟨hrest, ?_⟩
        intro h hm
        split at hm
        · exact hwf.2 h ((List.dropLast_sublist s.history).subset hm)
        · exact hwf.2 h hm
      · exact ⟨hrest, hwf.2⟩

/-- `setSelection` preserves the engine invariant. -/
theorem setSelectionOp_WF {ctx : Ctx} (sel : Sel) (s : MaskState)
    (hwf : EngineWF ctx s) : EngineWF ctx (setSelectionOp ctx sel s).2 := by
  simp only [setSelectionOp]
  split
  · split
    · exact EngineWF_transport hwf rfl rfl
    · split
      · exact EngineWF_transport hwf rfl rfl
      · exact EngineWF_transport hwf rfl rfl
  · exact EngineWF_transport hwf rfl rfl

/-- `setValue` preserves the engine invariant (non-revealing mask). -/
theorem setValueOp_WF {ctx : Ctx} (hn : NiceCtx ctx) (v : String) (s : MaskState)
    (hwf : EngineWF ctx s) : EngineWF ctx (setValueOp ctx v s) := by
  refine ⟨⟨formatValue_WF hn _, singles_of_WF hn (formatValue_WF hn _)⟩, ?_⟩
  exact hwf.2

/-- `getValue` preserves the engine invariant (non-revealing mask: no-op). -/
theorem getValueS_WF {ctx : Ctx} (hn : NiceCtx ctx) (s : MaskState)
    (hwf : EngineWF ctx s) : EngineWF ctx (getValueS ctx s).2 := by
  rw [getValueS_nonreveal ctx s hn.nonReveal]
  exact hwf

/-- The history block when the engine is not replaying: plain push-or-coalesce. -/
theorem histAfter_none (op : String) (vb : String) (selB : Sel) (s : MaskState)
    (hidx : s.historyIndex = none) :
    histAfter op vb selB s =
      if (decide (s.lastOp ≠ some op) || decide (selB.start ≠ selB.stop) ||
          (match s.lastSelection with
           | some ls => decide (selB.start ≠ ls.start)
           | none => false)) then
        s.history ++ [⟨vb, selB, s.lastOp, false⟩]
      else s.history := by
  simp [histAfter, hidx]

/-- Decomposing a false push condition: the edit coalesces only when the
previous operation was of the same kind and the selection was collapsed. -/
theorem pushBool_false {op : String} {selB : Sel} {s : MaskState}
    (h : (decide (s.lastOp ≠ some op) || decide (selB.start ≠ selB.stop) ||
      (match s.lastSelection with
       | some ls => decide (selB.start ≠ ls.start)
       | none => false)) = false) :
    s.lastOp = some op ∧ selB.start = selB.stop := by
  rcases Bool.or_eq_false_iff.mp h with ⟨h12, _⟩
  rcases Bool.or_eq_false_iff.mp h12 with ⟨ha, hb⟩
  exact ⟨not_not.mp (of_decide_eq_false ha), not_ne_iff.mp (of_decide_eq_false hb)⟩

/-- The newest snapshot after a push. -/
theorem topItem_concat (s2 : MaskState) (l : List HistoryItem) (x : HistoryItem)
    (hh : s2.history = l ++ [x]) : topItem s2 = x := by
  rw [topItem, hh, List.getLast?_concat]
  rfl

/-- The newest snapshot is untouched when the history is untouched. -/
theorem topItem_congr (s2 s : MaskState) (hh : s2.history = s.history) :
    topItem s2 = topItem s := by
  rw [topItem, topItem, hh]

/-- `input` preserves the coalescing invariant (non-revealing mask). -/
theorem inputOp_coalesce {ctx : Ctx} (hn : NiceCtx ctx) (c : String) (s : MaskState)
    (hci : CoalesceInv s) : CoalesceInv (inputOp ctx c s).2 := by
  rcases hci with ⟨hidx, hcase⟩
  by_cases h1 : s.selection.start = s.selection.stop ∧
      s.selection.start = (ctx.pat.pattern.length : Int)
  · rw [inputOp_atEnd ctx c s h1]
    exact ⟨hidx, hcase⟩
  · have hsucc : ∀ v1,
        ((isEditableI ctx.pat (effIndex ctx s.selection.start) = true ∧
          validAtN ctx.pat (some c) (effIndex ctx s.selection.start).toNat = true ∧
          v1 = jsSet s.value (effIndex ctx s.selection.start)
            (transformAtN ctx.pat c (effIndex ctx s.selection.start).toNat)) ∨
         (isEditableI ctx.pat (effIndex ctx s.selection.start) = false ∧ v1 = s.value)) →
        CoalesceInv (inputOp ctx c s).2 := by
      intro v1 hv1
      rw [inputOp_success_eq ctx c s hn.nonReveal h1 v1 hv1]
      have hns : s.selection.start <
          skipStatic ctx ctx.pat.pattern.length (effIndex ctx s.selection.start + 1) := by
        have h2 := effIndex_ge ctx s.selection.start
        have h3 := skipStatic_ge ctx ctx.pat.pattern.length (effIndex ctx s.selection.start + 1)
        omega
      refine ⟨rfl, Or.inr ?_⟩
      rw [histAfter_none _ _ _ _ hidx]
      by_cases hpn : (decide (s.lastOp ≠ some "input") ||
          decide (s.selection.start ≠ s.selection.stop) ||
          (match s.lastSelection with
           | some ls => decide (s.selection.start ≠ ls.start)
           | none => false)) = true
      · rw [if_pos hpn]
        refine ⟨by simp, Or.inl ⟨rfl, ?_⟩⟩
        simp only [topItem, List.getLast?_concat, Option.getD_some]
        exact hns
      · have hpf := Bool.eq_false_iff.mpr hpn
        rw [if_neg hpn]
        rcases pushBool_false hpf with ⟨hop, _⟩
        rcases hcase with ⟨_, hnone⟩ | ⟨hne, hq⟩
        · rw [hnone] at hop; cases hop
        · refine ⟨hne, Or.inl ⟨rfl, ?_⟩⟩
          simp only [topItem] at hq ⊢
          rcases hq with ⟨_, hlt⟩ | ⟨hbs, _⟩
          · omega
          · simp [hop] at hbs
    by_cases hed : isEditableI ctx.pat (effIndex ctx s.selection.start) = true
    · by_cases hval : validAtN ctx.pat (some c) (effIndex ctx s.selection.start).toNat = true
      · exact hsucc _ (Or.inl ⟨hed, hval, rfl⟩)
      · rw [inputOp_invalid ctx c s hn.nonReveal h1
          (by rw [← effIndex_eq_max]; exact hed)
          (by rw [← effIndex_eq_max]; exact Bool.eq_false_iff.mpr hval)]
        exact ⟨hidx, hcase⟩
    · exact hsucc _ (Or.inr ⟨Bool.eq_false_iff.mpr hed, rfl⟩)

/-- `backspace` preserves the coalescing invariant (non-revealing mask). -/
theorem backspaceOp_coalesce {ctx : Ctx} (hn : NiceCtx ctx) (s : MaskState)
    (hci : CoalesceInv s) : CoalesceInv (backspaceOp ctx s).2 := by
  rcases hci with ⟨hidx, hcase⟩
  by_cases h0 : s.selection.start = 0 ∧ s.selection.stop = 0
  · have : backspaceOp ctx s = (false, s) := by rw [backspaceOp, if_pos h0]
    rw [this]
    exact ⟨hidx, hcase⟩
  · rw [backspaceOp_eq ctx s hn.nonReveal h0]
    refine ⟨hidx, Or.inr ?_⟩
    rw [histAfter_none _ _ _ _ hidx]
    by_cases hpn : (decide (s.lastOp ≠ some "backspace") ||
        decide (s.selection.start ≠ s.selection.stop) ||
        (match s.lastSelection with
         | some ls => decide (s.selection.start ≠ ls.start)
         | none => false)) = true
    · rw [if_pos hpn]
      refine ⟨by simp, Or.inr ⟨rfl, ?_⟩⟩
      simp only [topItem, List.getLast?_concat, Option.getD_some]
      by_cases hcol : s.selection.start = s.selection.stop
      · rw [if_pos hcol]
        dsimp only
        omega
      · rw [if_neg hcol]
        rcases lt_trichotomy s.selection.start s.selection.stop with hlt | heq | hgt
        · left; exact hlt
        · exact absurd heq hcol
        · right; right
          exact ⟨hgt, rfl, le_refl _⟩
    · have hpf := Bool.eq_false_iff.mpr hpn
      rw [if_neg hpn]
      rcases pushBool_false hpf with ⟨hop, hcol⟩
      rcases hcase with ⟨_, hnone⟩ | ⟨hne, hq⟩
      · rw [hnone] at hop; cases hop
      · refine ⟨hne, Or.inr ⟨rfl, ?_⟩⟩
        simp only [topItem] at hq ⊢
        rw [if_pos hcol]
        dsimp only
        rcases hq with ⟨hin, _⟩ | ⟨_, hq2⟩
        · simp [hop] at hin
        · rcases hq2 with hlt | hlt | ⟨hts, hsc, hle⟩
          · left; omega
          · right; left; omega
          · right; right
            exact ⟨hts, by omega, by omega⟩

/-- `undo` refuses when the history is empty or fully replayed. -/
theorem undoOp_stop (ctx : Ctx) (s : MaskState)
    (h : s.history.length = 0 ∨ s.historyIndex = some 0) : undoOp ctx s = (some false, s) := by
  rw [undoOp, if_pos h]

/-- `redo` refuses when the history is empty or the engine is not replaying. -/
theorem redoOp_stop (ctx : Ctx) (s : MaskState)
    (h : s.history.length = 0 ∨ s.historyIndex = none) : redoOp ctx s = (some false, s) := by
  rw [redoOp, if_pos h]

/-- Iterating `undo` past a refusal changes nothing. -/
theorem undoStar_stall (ctx : Ctx) (s : MaskState)
    (h : undoOp ctx s = (some false, s)) : ∀ fuel, undoStar ctx fuel s = s := by
  intro fuel
  cases fuel with
  | zero => rfl
  | succ fuel =>
    simp only [undoStar, h]
    rfl

/-- Iterating `redo` past a refusal changes nothing. -/
theorem redoStar_stall (ctx : Ctx) (s : MaskState)
    (h : redoOp ctx s = (some false, s)) : ∀ fuel, redoStar ctx fuel s = s := by
  intro fuel
  cases fuel with
  | zero => rfl
  | succ fuel =>
    simp only [redoStar, h]
    rfl

/-- The first `undo` call of a dance: not replaying, nonempty history, and the
newest snapshot differs from the live state — so the synthetic redo target is
pushed and the newest snapshot is restored. -/
theorem undoOp_first_eq (ctx : Ctx) (s : MaskState)
    (hrev : ctx.pat.isRevealingMask = false) (hidx : s.historyIndex = none)
    (hne : s.history ≠ [])
    (hdiff : (topItem s).value ≠ joinValue s.value ∨
      (topItem s).selection.start ≠ s.selection.start ∨
      (topItem s).selection.stop ≠ s.selection.stop) :
    undoOp ctx s =
      (some true,
        { value := splitStr (topItem s).value
          selection := (topItem s).selection
          history := s.history ++ [⟨joinValue s.value, s.selection, s.lastOp, true⟩]
          historyIndex := some (s.history.length - 1)
          lastOp := (topItem s).lastOp
          lastSelection := s.lastSelection }) := by
  have hg : ¬(s.history.length = 0 ∨ s.historyIndex = some 0) := by
    rintro (h0 | h0)
    · exact hne (List.length_eq_zero.mp h0)
    · rw [hidx] at h0; cases h0
  rw [topItem, getLast_getD_eq s.history _ hne] at hdiff ⊢
  have hg2 : ¬(s.history.length = 0 ∨ (none : Option Nat) = some 0) := by
    rintro (h0 | h0)
    · exact hne (List.length_eq_zero.mp h0)
    · cases h0
  simp only [undoOp, hidx, getValueS_nonreveal ctx s hrev]
  rw [if_neg hg2, if_pos hdiff]

/-- Descending the history with `undo`: from replay position `j` with the
`j`-th snapshot already restored, enough fuel lands on snapshot `0` with the
history and `lastSelection` untouched. -/
theorem undoStar_desc (ctx : Ctx) (H2 : List HistoryItem) :
    ∀ (j extra : Nat) (s2 : MaskState),
      s2.history = H2 → s2.historyIndex = some j → j < H2.length →
      s2.value = splitStr (H2.getD j ⟨"", ⟨0, 0⟩, none, false⟩).value →
      s2.selection = (H2.getD j ⟨"", ⟨0, 0⟩, none, false⟩).selection →
      s2.lastOp = (H2.getD j ⟨"", ⟨0, 0⟩, none, false⟩).lastOp →
      undoStar ctx (j + 1 + extra) s2 =
        { value := splitStr (H2.getD 0 ⟨"", ⟨0, 0⟩, none, false⟩).value
          selection := (H2.getD 0 ⟨"", ⟨0, 0⟩, none, false⟩).selection
          history := H2
          historyIndex := some 0
          lastOp := (H2.getD 0 ⟨"", ⟨0, 0⟩, none, false⟩).lastOp
          lastSelection := s2.lastSelection } := by
  intro j
  induction j with
  | zero =>
    intro extra s2 hh hix hlt hv hs ho
    have hstop : undoOp ctx s2 = (some false, s2) := undoOp_stop ctx s2 (Or.inr hix)
    rw [undoStar_stall ctx s2 hstop]
    ext1
    · exact hv
    · exact hs
    · exact hh
    · exact hix
    · exact ho
    · rfl
  | succ j ih =>
    intro extra s2 hh hix hlt hv hs ho
    have hg : ¬(s2.history.length = 0 ∨ s2.historyIndex = some 0) := by
      rintro (h0 | h0)
      · rw [hh] at h0
        omega
      · rw [hix] at h0
        cases h0
    have hget : s2.history.get? j = some (H2.getD j ⟨"", ⟨0, 0⟩, none, false⟩) := by
      rw [hh, List.get?_eq_getElem?, List.getD_eq_getElem?_getD,
        List.getElem?_eq_getElem (by omega : j < H2.length)]
      rfl
    have hstep : undoOp ctx s2 =
        (some true,
          { s2 with
            historyIndex := some j
            value := splitStr (H2.getD j ⟨"", ⟨0, 0⟩, none, false⟩).value
            selection := (H2.getD j ⟨"", ⟨0, 0⟩, none, false⟩).selection
            lastOp := (H2.getD j ⟨"", ⟨0, 0⟩, none, false⟩).lastOp }) := by
      have hg2 : ¬(s2.history.length = 0 ∨ (some (j + 1) : Option Nat) = some 0) := by
        rintro (h0 | h0)
        · rw [hh] at h0; omega
        · cases h0
      simp only [undoOp, hix]
      have hj1 : j + 1 - 1 = j := by omega
      rw [hj1, hget, if_neg hg2]
    have : undoStar ctx (j + 1 + 1 + extra) s2 =
        undoStar ctx (j + 1 + extra) ((undoOp ctx s2).2) := by
      have hfe : j + 1 + 1 + extra = (j + 1 + extra) + 1 := by omega
      rw [hfe]
      simp only [undoStar, hstep]
      rfl
    rw [this, hstep]
    exact ih extra _ hh rfl (by omega) rfl rfl rfl

/-- Climbing back with `redo`: from replay position `k` with `m = n - k` steps
to go over history `H ++ [cur]` whose last entry is the synthetic redo target,
enough fuel restores `cur`, pops it, and leaves replay mode. -/
theorem redoStar_climb (ctx : Ctx) (H : List HistoryItem) (cur : HistoryItem)
    (hcur : cur.startUndo = true) :
    ∀ (m k extra : Nat) (s2 : MaskState),
      k + m = H.length → 1 ≤ m → s2.history = H ++ [cur] → s2.historyIndex = some k →
      redoStar ctx (m + extra) s2 =
        { value := splitStr cur.value
          selection := cur.selection
          history := H
          historyIndex := none
          lastOp := cur.lastOp
          lastSelection := s2.lastSelection } := by
  intro m
  induction m with
  | zero => intro k extra s2 _ h1; omega
  | succ m ih =>
    intro k extra s2 hkm _ hh hix
    have hg : ¬(s2.history.length = 0 ∨ s2.historyIndex = none) := by
      rintro (h0 | h0)
      · rw [hh] at h0
        simp at h0
      · rw [hix] at h0; cases h0
    have hg2 : ¬(s2.history.length = 0 ∨ (some k : Option Nat) = none) := by
      rintro (h0 | h0)
      · rw [hh] at h0
        simp at h0
      · cases h0
    rcases Nat.eq_zero_or_pos m with hm0 | hmpos
    · subst hm0
      have hkn : k + 1 = H.length := by omega
      have hget : s2.history.get? (k + 1) = some cur := by
        rw [hh, List.get?_eq_getElem?, hkn]
        exact List.getElem?_concat_length H cur
      have hlen : k + 1 = s2.history.length - 1 := by
        rw [hh]
        simp
        omega
      have hstep : redoOp ctx s2 =
          (some true,
            { value := splitStr cur.value
              selection := cur.selection
              history := H
              historyIndex := none
              lastOp := cur.lastOp
              lastSelection := s2.lastSelection }) := by
        simp only [redoOp, hix, Option.getD_some]
        rw [if_neg hg2, hget]
        dsimp only
        rw [if_pos hlen, hcur]
        simp only [if_true]
        rw [hh, List.dropLast_concat]
      have hfe : 1 + extra = extra + 1 := by omega
      rw [hfe]
      simp only [redoStar, hstep]
      simp only [decide_True, if_true]
      apply redoStar_stall
      apply redoOp_stop
      exact Or.inr rfl
    · have hget : s2.history.get? (k + 1) = some (H.getD (k + 1) ⟨"", ⟨0, 0⟩, none, false⟩) := by
        rw [hh, List.get?_eq_getElem?, List.getElem?_append,
          if_pos (by omega : k + 1 < H.length),
          List.getD_eq_getElem?_getD, List.getElem?_eq_getElem (by omega : k + 1 < H.length)]
        rfl
      have hne2 : ¬(k + 1 = s2.history.length - 1) := by
        rw [hh]
        simp
        omega
      have hstep : redoOp ctx s2 =
          (some true,
            { s2 with
              historyIndex := some (k + 1)
              value := splitStr (H.getD (k + 1) ⟨"", ⟨0, 0⟩, none, false⟩).value
              selection := (H.getD (k + 1) ⟨"", ⟨0, 0⟩, none, false⟩).selection
              lastOp := (H.getD (k + 1) ⟨"", ⟨0, 0⟩, none, false⟩).lastOp }) := by
        simp only [redoOp, hix, Option.getD_some]
        rw [if_neg hg2, hget]
        dsimp only
        rw [if_neg hne2]
      have hfe : m + 1 + extra = (m + extra) + 1 := by omega
      rw [hfe]
      simp only [redoStar, hstep]
      simp only [decide_True, if_true]
      exact ih (k + 1) extra _ (by omega) hmpos hh rfl

/-- The engine invariant holds in every reachable state (non-revealing mask). -/
theorem Reach_WF {ctx : Ctx} (hn : NiceCtx ctx) {s0 s : MaskState}
    (hwf0 : EngineWF ctx s0) (hr : Reach ctx s0 s) : EngineWF ctx s := by
  induction hr with
  | refl => exact hwf0
  | typeStep c _ ih => exact inputOp_WF hn c _ ih
  | bspStep _ ih => exact backspaceOp_WF hn _ ih
  | pasteStep t _ ih => exact pasteOp_WF hn t _ ih
  | undoStep _ ih => exact undoOp_WF hn _ ih
  | redoStep _ ih => exact redoOp_WF hn _ ih
  | setSelStep sel _ ih => exact setSelectionOp_WF sel _ ih
  | setValStep v _ ih => exact setValueOp_WF hn v _ ih
  | getValStep _ ih => exact getValueS_WF hn _ ih

/-- One successful `undo` call consumes one unit of loop fuel. -/
theorem undoStar_step (ctx : Ctx) (fuel : Nat) (s s2 : MaskState)
    (h : undoOp ctx s = (some true, s2)) :
    undoStar ctx (fuel + 1) s = undoStar ctx fuel s2 := by
  simp only [undoStar, h]
  rfl

/-- Undoing to exhaustion and then redoing to exhaustion restores exactly the
starting state, on a non-revealing mask from any state whose buffer entries are
single characters and which satisfies the coalescing invariant; the
terminating `undo` and `redo` calls really return `false`. -/
theorem dance_restores (ctx : Ctx) (s : MaskState)
    (hrev : ctx.pat.isRevealingMask = false)
    (hse : SingleEntries s.value) (hci : CoalesceInv s) :
    danceState ctx s = s ∧
    (undoOp ctx (undoStar ctx (s.history.length + 2) s)).1 = some false ∧
    (redoOp ctx (danceState ctx s)).1 = some false := by
  obtain ⟨hidx, hrest⟩ := hci
  rcases hrest with ⟨hemp, _⟩ | ⟨hne, hdisj⟩
  · have hu : undoOp ctx s = (some false, s) :=
      undoOp_stop ctx s (Or.inl (by simp [hemp]))
    have hr : redoOp ctx s = (some false, s) :=
      redoOp_stop ctx s (Or.inr hidx)
    refine ⟨?_, ?_, ?_⟩
    · rw [danceState, undoStar_stall ctx s hu, redoStar_stall ctx s hr]
    · rw [undoStar_stall ctx s hu, hu]
    · rw [danceState, undoStar_stall ctx s hu, redoStar_stall ctx s hr, hr]
  · have hlen0 : 0 < s.history.length := List.length_pos.mpr hne
    have hdiff : (topItem s).value ≠ joinValue s.value ∨
        (topItem s).selection.start ≠ s.selection.start ∨
        (topItem s).selection.stop ≠ s.selection.stop := by
      rcases hdisj with ⟨_, hlt⟩ | ⟨_, h1 | h2 | ⟨h3a, h3b, h3c⟩⟩
      · exact Or.inr (Or.inl (by omega))
      · exact Or.inr (Or.inr (by omega))
      · exact Or.inr (Or.inl (by omega))
      · by_cases he : (topItem s).selection.start = s.selection.start
        · exact Or.inr (Or.inr (by omega))
        · exact Or.inr (Or.inl he)
    have h1 := undoOp_first_eq ctx s hrev hidx hne hdiff
    have htop : topItem s
        = (s.history ++ [(⟨joinValue s.value, s.selection, s.lastOp, true⟩ : HistoryItem)]).getD
            (s.history.length - 1) ⟨"", ⟨0, 0⟩, none, false⟩ := by
      rw [topItem, getLast_getD_eq s.history _ hne,
        getD_append_left s.history _ (s.history.length - 1) _ (by omega)]
    have hdesc := undoStar_desc ctx
      (s.history ++ [⟨joinValue s.value, s.selection, s.lastOp, true⟩])
      (s.history.length - 1) 1
      { value := splitStr (topItem s).value
        selection := (topItem s).selection
        history := s.history ++ [⟨joinValue s.value, s.selection, s.lastOp, true⟩]
        historyIndex := some (s.history.length - 1)
        lastOp := (topItem s).lastOp
        lastSelection := s.lastSelection }
      rfl rfl
      (by simp only [List.length_append, List.length_cons, List.length_nil]; omega)
      (by rw [htop]) (by rw [htop]) (by rw [htop])
    have hfe1 : s.history.length - 1 + 1 + 1 = s.history.length + 1 := by omega
    rw [hfe1] at hdesc
    have h2eq : s.history.length + 2 = s.history.length + 1 + 1 := by omega
    have hund : undoStar ctx (s.history.length + 2) s = undoStar ctx (s.history.length + 1)
        { value := splitStr (topItem s).value
          selection := (topItem s).selection
          history := s.history ++ [⟨joinValue s.value, s.selection, s.lastOp, true⟩]
          historyIndex := some (s.history.length - 1)
          lastOp := (topItem s).lastOp
          lastSelection := s.lastSelection } := by
      rw [h2eq]
      exact undoStar_step ctx (s.history.length + 1) s _ h1
    have hund2 := hund.trans hdesc
    have hdance : danceState ctx s = s := by
      rw [danceState, hund2]
      exact (redoStar_climb ctx s.history ⟨joinValue s.value, s.selection, s.lastOp, true⟩ rfl
          s.history.length 0 2 _ (Nat.zero_add _) hlen0 rfl rfl).trans
        (show ({ value := splitStr (joinValue s.value)
                 selection := s.selection
                 history := s.history
                 historyIndex := none
                 lastOp := s.lastOp
                 lastSelection := s.lastSelection } : MaskState) = s from by
          rw [splitStr_joinValue s.value hse, ← hidx])
    refine ⟨hdance, ?_, ?_⟩
    · have hstop := undoOp_stop ctx (undoStar ctx (s.history.length + 2) s)
        (Or.inr (by rw [hund2]))
      rw [hstop]
    · rw [hdance, redoOp_stop ctx s (Or.inr hidx)]

/-- `input`/`backspace` sequences preserve the engine invariant and the
coalescing invariant. -/
theorem applyEdits_inv {ctx : Ctx} (hn : NiceCtx ctx) :
    ∀ (ops : List EditOp) (s : MaskState), EngineWF ctx s → CoalesceInv s →
      EngineWF ctx (applyEdits ctx s ops) ∧ CoalesceInv (applyEdits ctx s ops) := by
  intro ops
  induction ops with
  | nil =>
    intro s hw hc
    exact ⟨hw, hc⟩
  | cons op rest ih =>
    intro s hw hc
    cases op with
    | typeC c =>
      exact ih (inputOp ctx c s).2 (inputOp_WF hn c s hw) (inputOp_coalesce hn c s hc)
    | bspC =>
      exact ih (backspaceOp ctx s).2 (backspaceOp_WF hn s hw) (backspaceOp_coalesce hn s hc)

/-- The state `mkMask` builds satisfies the engine invariant and the coalescing
invariant. -/
theorem mkMask_WF0 (src : String) (r : Registry) (ph : String) (v0 : String) (sel0 : Sel)
    (ctx : Ctx) (s0 : MaskState)
    (hmk : mkMask src r ph false v0 sel0 = .ok (ctx, s0))
    (hph : ph.length = 1) (hreg : RegistryOneChar r) :
    EngineWF ctx s0 ∧ CoalesceInv s0 := by
  have hn := mkMask_nice src r ph v0 sel0 ctx s0 hmk hph hreg
  rcases mkMask_inv src r ph false v0 sel0 ctx s0 hmk with ⟨_, _, hs0⟩
  subst hs0
  refine ⟨⟨⟨formatValue_WF hn (splitCand v0),
    singles_of_WF hn (formatValue_WF hn (splitCand v0))⟩, ?_⟩, rfl, Or.inl ⟨rfl, rfl⟩⟩
  intro h hmem
  simp at hmem

/-- C2 (amended: the engine must be built with a single-character placeholder,
a registry whose transforms keep characters single — as the default registry
does — and a non-revealing mask): for every such successfully constructed
`InputMask` and every finite sequence of `input`/`backspace` calls, calling
`undo()` repeatedly until it returns false and then `redo()` repeatedly until
it returns false leaves the engine's `(value, selection)` exactly equal to the
`(value, selection)` that held immediately before the first `undo()`; the
terminating `undo` and `redo` calls really do return false. -/
theorem C2_undo_redo_inverse (src ph v0 : String) (sel0 : Sel) (r : Registry)
    (ctx : Ctx) (s0 : MaskState)
    (hmk : mkMask src r ph false v0 sel0 = .ok (ctx, s0))
    (hph : ph.length = 1) (hreg : RegistryOneChar r) (ops : List EditOp) :
    (danceState ctx (applyEdits ctx s0 ops)).value = (applyEdits ctx s0 ops).value ∧
    (danceState ctx (applyEdits ctx s0 ops)).selection = (applyEdits ctx s0 ops).selection ∧
    (undoOp ctx (undoStar ctx ((applyEdits ctx s0 ops).history.length + 2)
      (applyEdits ctx s0 ops))).1 = some false ∧
    (redoOp ctx (danceState ctx (applyEdits ctx s0 ops))).1 = some false := by
  have hn := mkMask_nice src r ph v0 sel0 ctx s0 hmk hph hreg
  have h0 := mkMask_WF0 src r ph v0 sel0 ctx s0 hmk hph hreg
  have hinv := applyEdits_inv hn ops s0 h0.1 h0.2
  have hd := dance_restores ctx (applyEdits ctx s0 ops) hn.nonReveal hinv.1.1.2 hinv.2
  exact ⟨by rw [hd.1], by rw [hd.1], hd.2.1, hd.2.2⟩

/-- C2 witness: on the mask `"11"` with the default placeholder, after typing
`1` and backspacing, the undo/redo dance restores the buffer. -/
theorem C2_undo_redo_inverse_witness :
    ("_".length = 1) ∧
    (danceState (mkMaskD "11" defaultRegistry "_" false "" ⟨0, 0⟩).1
        (applyEdits (mkMaskD "11" defaultRegistry "_" false "" ⟨0, 0⟩).1
          (mkMaskD "11" defaultRegistry "_" false "" ⟨0, 0⟩).2
          [.typeC "1", .bspC])).value =
      (applyEdits (mkMaskD "11" defaultRegistry "_" false "" ⟨0, 0⟩).1
        (mkMaskD "11" defaultRegistry "_" false "" ⟨0, 0⟩).2 [.typeC "1", .bspC]).value :=
  ⟨by decide,
    (C2_undo_redo_inverse "11" "_" "" ⟨0, 0⟩ defaultRegistry
      (mkMaskD "11" defaultRegistry "_" false "" ⟨0, 0⟩).1
      (mkMaskD "11" defaultRegistry "_" false "" ⟨0, 0⟩).2
      (by rfl) (by decide) defaultRegistry_oneChar [.typeC "1", .bspC]).1⟩

/-- C2 fails as stated: the constructor accepts the empty placeholder string,
but on the mask `"11"` built with it, after `input('1')` then `backspace()`,
the undo/redo dance (both loops genuinely ending on a `false` return) leaves a
buffer different from the pre-undo buffer — the snapshots store the buffer as
a joined string, and splitting it back cannot see the empty-string entry. -/
theorem C2_undo_redo_counterexample :
    (undoOp emptyPhMask.1 (undoStar emptyPhMask.1
      ((applyEdits emptyPhMask.1 emptyPhMask.2 [.typeC "1", .bspC]).history.length + 2)
      (applyEdits emptyPhMask.1 emptyPhMask.2 [.typeC "1", .bspC]))).1 = some false ∧
    (redoOp emptyPhMask.1 (danceState emptyPhMask.1
      (applyEdits emptyPhMask.1 emptyPhMask.2 [.typeC "1", .bspC]))).1 = some false ∧
    ¬((danceState emptyPhMask.1
        (applyEdits emptyPhMask.1 emptyPhMask.2 [.typeC "1", .bspC])).value =
      (applyEdits emptyPhMask.1 emptyPhMask.2 [.typeC "1", .bspC]).value) := by
  refine ⟨by decide, by decide, by decide⟩

/-- C3 (amended: restricted to non-revealing masks built with a
single-character placeholder and a registry whose transforms keep characters
single, as the default registry does): in every reachable state the value
buffer has the pattern's length, literal slots hold the corresponding pattern
character, and editable slots hold the placeholder or the transform of a
character accepted by the slot's validator. -/
theorem C3_value_invariant (src ph v0 : String) (sel0 : Sel) (r : Registry)
    (ctx : Ctx) (s0 : MaskState)
    (hmk : mkMask src r ph false v0 sel0 = .ok (ctx, s0))
    (hph : ph.length = 1) (hreg : RegistryOneChar r)
    (s : MaskState) (hr : Reach ctx s0 s) :
    s.value.length = ctx.pat.pattern.length ∧
    (∀ i, i < ctx.pat.pattern.length → ctx.pat.editable.getD i false = false →
      s.value.getD i none = some ((ctx.pat.pattern.getD i ' ').toString)) ∧
    (∀ i, i < ctx.pat.pattern.length → ctx.pat.editable.getD i false = true →
      s.value.getD i none = some ctx.pat.placeholderChar ∨
      ∃ c : String, validAtN ctx.pat (some c) i = true ∧
        s.value.getD i none = some (transformAtN ctx.pat c i)) := by
  have hn := mkMask_nice src r ph v0 sel0 ctx s0 hmk hph hreg
  have h0 := mkMask_WF0 src r ph v0 sel0 ctx s0 hmk hph hreg
  have hwf := (Reach_WF hn h0.1 hr).1.1
  exact ⟨hwf.1, fun i hi he => (hwf.2 i hi).2 he, fun i hi he => (hwf.2 i hi).1 he⟩

/-- C3 witness: on the mask `"1-1"`, empty value, after typing `5`, the buffer
keeps the pattern's length. -/
theorem C3_value_invariant_witness :
    (mkMask "1-1" defaultRegistry "_" false "" ⟨0, 0⟩ = .ok (dashMask.1, dashMask.2)) ∧
    (inputOp dashMask.1 "5" dashMask.2).2.value.length = dashMask.1.pat.pattern.length :=
  ⟨by rfl,
    (C3_value_invariant "1-1" "_" "" ⟨0, 0⟩ defaultRegistry dashMask.1 dashMask.2
      (by rfl) (by decide) defaultRegistry_oneChar _ (Reach.typeStep "5" Reach.refl)).1⟩

/-- C3 fails as stated for revealing masks (which the constructor accepts):
on the revealing mask `"11"` built with value `"1"` and the cursor after the
digit, a single `backspace()` — a reachable state — splices the buffer down to
length 0, not the pattern length 2. -/
theorem C3_invariant_counterexample :
    Reach reveal2Mask.1 reveal2Mask.2 (backspaceOp reveal2Mask.1 reveal2Mask.2).2 ∧
    ¬((backspaceOp reveal2Mask.1 reveal2Mask.2).2.value.length =
      reveal2Mask.1.pat.pattern.length) :=
  ⟨Reach.bspStep Reach.refl, by decide⟩

end InputMaskCore
